import Mathlib

/-!
# quat: a 3D rotation algebra library (quat.c / quat.h)

Shallow embedding of the quaternion library.  The C types `float` and `double`
are modelled by the elements of a linear ordered field `F`, so every definition
below is a computable function that can be run on `ℚ`.  The functions of `math.h`
used by the code (`sqrt`, `sin`, `cos`, `acos`, `asin`, `atan2`) and the constant
`M_PI` are arguments of the definitions that call them; the theorems instantiate
them with `Real.sqrt`, `Real.sin`, `Real.cos`, `Real.arccos`, `Real.arcsin` over `ℝ`,
and `M_PI` with `Real.pi` in `quat_from_u2v`.

Arithmetic is exact, except where the rounding of a `float` decides a branch, a
range or a domain.  There the definitions take the rounding `rnd` of a value
assigned to a `float` as an argument (`quat_init_axis_f32`, `quat_len_f32`,
`quat_normalize_f32`, `normalize_euler_0_2pi`, `quat_to_euler`), which the theorems
instantiate with `f32_round`, the rounding to the nearest binary32 number; `M_PI`
is then the `double` constant of `math.h`, and `asinf` has NaN as its result outside
`[-1, 1]`.

Output parameters become return values; a pointer that may be null (`up` of
`quat_from_u2v`) becomes an `Option`.
-/

namespace Quat

/-! ## Data model (quat.h) -/

/-- The generic 3d vector of quat.h: `vec3_t`, fields `x`, `y`, `z` (`vec[0..2]`). -/
@[ext]
structure vec3_t (F : Type) where
  x : F
  y : F
  z : F
deriving DecidableEq

/-- The quaternion of quat.h: `quat_t`, fields `w`, `x`, `y`, `z`, which the union
    also names `q0 .. q3` and `vec[0..3]`, in this order. -/
@[ext]
structure quat_t (F : Type) where
  w : F
  x : F
  y : F
  z : F
deriving DecidableEq

/-- The euler angle of quat.h: `euler_t`, fields `yaw`, `pitch`, `roll`.  The pitch
    is the result of `asinf`: `none` stands for the NaN that `asinf` returns for an
    argument outside `[-1, 1]`. -/
@[ext]
structure euler_t (F : Type) where
  yaw : F
  pitch : Option F
  roll : F
deriving DecidableEq

section Defs

variable {F : Type} [LinearOrderedField F]

/-- The array view `vec[i]` of a `vec3_t`. -/
def vec3_t.vec (v : vec3_t F) : Fin 3 → F
  | 0 => v.x
  | 1 => v.y
  | 2 => v.z

/-- The array view `vec[i]` of a `quat_t`: `vec[0]` is `w`. -/
def quat_t.vec (q : quat_t F) : Fin 4 → F
  | 0 => q.w
  | 1 => q.x
  | 2 => q.y
  | 3 => q.z

/-- The constant `ZERO_TOLERANCE = 0.000001f` of quat.c. -/
def ZERO_TOLERANCE : F := 0.000001

/-- The constant `identity_quat = { {1.0, 0.0, 0.0, 0.0} }` of quat.c. -/
def identity_quat : quat_t F := { w := 1, x := 0, y := 0, z := 0 }

/-! ## Quaternion algebra -/

/-- The function `quat_init_axis(q, x, y, z, a)`. -/
def quat_init_axis (sin cos : F → F) (x y z a : F) : quat_t F :=
  let a2 := a * 0.5
  let s := sin a2
  { x := x * s, y := y * s, z := z * s, w := cos a2 }

/-- The function `quat_rot_vec(vo, vi, q)`. -/
def quat_rot_vec (vi : vec3_t F) (q : quat_t F) : vec3_t F :=
  let vx := vi.x
  let vy := vi.y
  let vz := vi.z
  let qw := q.w
  let qx := q.x
  let qy := q.y
  let qz := q.z
  let qww := qw * qw
  let qxx := qx * qx
  let qyy := qy * qy
  let qzz := qz * qz
  let qwx := qw * qx
  let qwy := qw * qy
  let qwz := qw * qz
  let qxy := qx * qy
  let qxz := qx * qz
  let qyz := qy * qz
  { x := (qww + qxx - qyy - qzz) * vx + 2 * ((qxy - qwz) * vy + (qxz + qwy) * vz),
    y := (qww - qxx + qyy - qzz) * vy + 2 * ((qxy + qwz) * vx + (qyz - qwx) * vz),
    z := (qww - qxx - qyy + qzz) * vz + 2 * ((qxz - qwy) * vx + (qyz + qwx) * vy) }

/-- The function `quat_len(q)`: the loop `FOR_N(i, 4) s += q->vec[i] * q->vec[i]`
    followed by `sqrtf`. -/
def quat_len (sqrt : F → F) (q : quat_t F) : F :=
  sqrt ((List.finRange 4).foldl (fun s i => s + q.vec i * q.vec i) 0)

/-- The function `quat_conj(q_out, q_in)`. -/
def quat_conj (q_in : quat_t F) : quat_t F :=
  { x := -q_in.x, y := -q_in.y, z := -q_in.z, w := q_in.w }

/-- The function `quat_mul(o, q1, q2)`. -/
def quat_mul (q1 q2 : quat_t F) : quat_t F :=
  { x :=  q1.x * q2.w + q1.y * q2.z - q1.z * q2.y + q1.w * q2.x,
    y := -q1.x * q2.z + q1.y * q2.w + q1.z * q2.x + q1.w * q2.y,
    z :=  q1.x * q2.y - q1.y * q2.x + q1.z * q2.w + q1.w * q2.z,
    w := -q1.x * q2.x - q1.y * q2.y - q1.z * q2.z + q1.w * q2.w }

/-- The function `quat_scale(o, q, f)`: `o->vec[i] = q->vec[i] * f` for `i < 4`. -/
def quat_scale (q : quat_t F) (f : F) : quat_t F :=
  { w := q.vec 0 * f, x := q.vec 1 * f, y := q.vec 2 * f, z := q.vec 3 * f }

/-- The function `quat_normalize(o, q)`. -/
def quat_normalize (sqrt : F → F) (q : quat_t F) : quat_t F :=
  quat_scale q (1 / quat_len sqrt q)

/-- The function `quat_normalize_self(q)`. -/
def quat_normalize_self (sqrt : F → F) (q : quat_t F) : quat_t F :=
  quat_normalize sqrt q

/-- The function `quat_dot(q1, q2)`. -/
def quat_dot (q1 q2 : quat_t F) : F :=
  q1.vec 0 * q2.vec 0 + q1.vec 1 * q2.vec 1 + q1.vec 2 * q2.vec 2 + q1.vec 3 * q2.vec 3

/-! ## Vector algebra -/

/-- The function `vec3_dot(v1, v2)`. -/
def vec3_dot (v1 v2 : vec3_t F) : F :=
  v1.vec 0 * v2.vec 0 + v1.vec 1 * v2.vec 1 + v1.vec 2 * v2.vec 2

/-- The function `vec3_cross(vo, v1, v2)`. -/
def vec3_cross (v1 v2 : vec3_t F) : vec3_t F :=
  { x := v1.vec 1 * v2.vec 2 - v1.vec 2 * v2.vec 1,
    y := v1.vec 2 * v2.vec 0 - v1.vec 0 * v2.vec 2,
    z := v1.vec 0 * v2.vec 1 - v1.vec 1 * v2.vec 0 }

/-- The function `vec3_len2(v)`. -/
def vec3_len2 (v : vec3_t F) : F :=
  v.x * v.x + v.y * v.y + v.z * v.z

/-- The function `vec3_normalize(vo, vi)`. -/
def vec3_normalize (sqrt : F → F) (vi : vec3_t F) : vec3_t F :=
  let len := sqrt (vec3_len2 vi)
  { x := vi.x / len, y := vi.y / len, z := vi.z / len }

/-! ## Rotation conversions -/

/-- The function `quat_to_rh_rot_matrix(q, m)`: the sixteen entries `m[0] .. m[15]`
    (column major order) in the order they are written. -/
def quat_to_rh_rot_matrix (sqrt : F → F) (q : quat_t F) : List F :=
  let qn := quat_normalize sqrt q
  let qw := qn.w
  let qx := qn.x
  let qy := qn.y
  let qz := qn.z
  [ 1 - 2 * qy * qy - 2 * qz * qz,
    2 * qx * qy + 2 * qz * qw,
    2 * qx * qz - 2 * qy * qw,
    0,
    2 * qx * qy - 2 * qz * qw,
    1 - 2 * qx * qx - 2 * qz * qz,
    2 * qy * qz + 2 * qx * qw,
    0,
    2 * qx * qz + 2 * qy * qw,
    2 * qy * qz - 2 * qx * qw,
    1 - 2 * qx * qx - 2 * qy * qy,
    0,
    0,
    0,
    0,
    1 ]

/-- The function `quat_from_u2v(q, u, v, up)`; a null `up` is `none`. -/
def quat_from_u2v (sqrt sin cos acos : F → F) (pi : F)
    (u v : vec3_t F) (up : Option (vec3_t F)) : quat_t F :=
  let un := vec3_normalize sqrt u
  let vn := vec3_normalize sqrt v
  let dot := vec3_dot un vn
  if |dot - -1| < ZERO_TOLERANCE then
    let default_up : vec3_t F := { x := 0, y := 1, z := 0 }
    let up := match up with
      | none => default_up
      | some w => w
    quat_init_axis sin cos up.x up.y up.z pi
  else if |dot - 1| < ZERO_TOLERANCE then
    identity_quat
  else
    let angle := acos dot
    let axis := vec3_cross un vn
    let axisn := vec3_normalize sqrt axis
    quat_init_axis sin cos axisn.x axisn.y axisn.z angle

/-! ## Interpolation -/

/-- The static function `quat_lerp(qo, qfrom, qto, t)`. -/
def quat_lerp (qfrom qto : quat_t F) (t : F) : quat_t F :=
  let cosom := quat_dot qfrom qto
  if cosom ≥ 1 then
    qfrom
  else
    let to1 : quat_t F :=
      if cosom < 0 then { x := -qto.x, y := -qto.y, z := -qto.z, w := -qto.w } else qto
    let scale0 := 1 - t
    let scale1 := t
    { x := scale0 * qfrom.x + scale1 * to1.x,
      y := scale0 * qfrom.y + scale1 * to1.y,
      z := scale0 * qfrom.z + scale1 * to1.z,
      w := scale0 * qfrom.w + scale1 * to1.w }

/-- The function `quat_nlerp(qo, qfrom, qto, t)`. -/
def quat_nlerp (sqrt : F → F) (qfrom qto : quat_t F) (t : F) : quat_t F :=
  quat_normalize_self sqrt (quat_lerp qfrom qto t)

/-- The function `quat_slerp(qo, qfrom, qto, t)`.  The pair `(cosom, to1)` is the
    state after the block "adjust for shortest path". -/
def quat_slerp (sin acos : F → F) (qfrom qto : quat_t F) (t : F) : quat_t F :=
  let cosom := quat_dot qfrom qto
  if cosom ≥ 1 then
    qfrom
  else
    let adj : F × quat_t F :=
      if cosom < 0 then
        (-cosom, { x := -qto.x, y := -qto.y, z := -qto.z, w := -qto.w })
      else
        (cosom, qto)
    let cosom := adj.1
    let to1 := adj.2
    let scale : F × F :=
      if cosom < 0.99995 then
        let omega := acos cosom
        let sinom := sin omega
        (sin ((1 - t) * omega) / sinom, sin (t * omega) / sinom)
      else
        (1 - t, t)
    let scale0 := scale.1
    let scale1 := scale.2
    { x := scale0 * qfrom.x + scale1 * to1.x,
      y := scale0 * qfrom.y + scale1 * to1.y,
      z := scale0 * qfrom.z + scale1 * to1.z,
      w := scale0 * qfrom.w + scale1 * to1.w }

/-! ## Incremental rotation -/

/-- The function `quat_apply_relative_yaw_pitch_roll(q, yaw, pitch, roll)`: the
    value stored in `*q`, which is also the one returned. -/
def quat_apply_relative_yaw_pitch_roll (sqrt sin cos : F → F)
    (q : quat_t F) (yaw pitch roll : F) : quat_t F :=
  let qyaw := quat_init_axis sin cos 0 1 0 yaw
  let qpitch := quat_init_axis sin cos 0 0 1 pitch
  let qroll := quat_init_axis sin cos 1 0 0 roll
  let q1 := quat_mul qyaw qpitch
  let qrot := quat_mul q1 qroll
  let q1 := quat_mul q qrot
  let q2 := quat_conj q
  let q3 := quat_mul q1 q2
  let q4 := quat_mul q3 q
  let q4 := quat_normalize_self sqrt q4
  q4

/-! ## Functions embedded for the conversions and the cold start -/

/-- The function `quat_init(q, acc, mag)`; `q0 .. q3` are `w`, `x`, `y`, `z`. -/
def quat_init (sin cos : F → F) (atan2 : F → F → F) (acc mag : vec3_t F) : quat_t F :=
  let ax := acc.x
  let ay := acc.y
  let az := acc.z
  let mx := mag.x
  let my := mag.y
  let mz := mag.z
  let init_roll := atan2 (-ay) (-az)
  let init_pitch := atan2 ax (-az)
  let cos_roll := cos init_roll
  let sin_roll := sin init_roll
  let cos_pitch := cos init_pitch
  let sin_pitch := sin init_pitch
  let mag_x := mx * cos_pitch + my * sin_roll * sin_pitch + mz * cos_roll * sin_pitch
  let mag_y := my * cos_roll - mz * sin_roll
  let init_yaw := atan2 (-mag_y) mag_x
  let cos_roll := cos (init_roll * 0.5)
  let sin_roll := sin (init_roll * 0.5)
  let cos_pitch := cos (init_pitch * 0.5)
  let sin_pitch := sin (init_pitch * 0.5)
  let cosHeading := cos (init_yaw * 0.5)
  let sinHeading := sin (init_yaw * 0.5)
  { w := cos_roll * cos_pitch * cosHeading + sin_roll * sin_pitch * sinHeading,
    x := sin_roll * cos_pitch * cosHeading - cos_roll * sin_pitch * sinHeading,
    y := cos_roll * sin_pitch * cosHeading + sin_roll * cos_pitch * sinHeading,
    z := cos_roll * cos_pitch * sinHeading - sin_roll * sin_pitch * cosHeading }

/-- The constant `M_PI` of `math.h`: the `double` nearest to π,
    `0x1.921FB54442D18p+1`. -/
def M_PI : F := 884279719003555 / 281474976710656

/-- The function `asinf` of `math.h`: the arcsine on `[-1, 1]`, and NaN (`none`)
    outside. -/
def asinf (asin : F → F) (x : F) : Option F :=
  if -1 ≤ x ∧ x ≤ 1 then some (asin x) else none

/-- The function `normalize_euler_0_2pi(a)`: the loop
    `while (a < 0) a += (float)(2 * M_PI)`, with `rnd` the rounding of a value
    assigned to a `float`.  The fuel bounds the number of times the loop body runs;
    `none` when the loop has not exited within that bound. -/
def normalize_euler_0_2pi (rnd : F → F) (pi : F) : Nat → F → Option F
  | 0, a => if a < 0 then none else some a
  | fuel + 1, a =>
    if a < 0 then normalize_euler_0_2pi rnd pi fuel (rnd (a + rnd (2 * pi))) else some a

/-- The function `quat_to_euler(euler, quat)`, with the rounding of the addition in
    `normalize_euler_0_2pi` and the fuel of its loop; the arithmetic of the arguments
    of `atan2f` and `asinf` is exact. -/
def quat_to_euler (rnd : F → F) (asin : F → F) (atan2 : F → F → F) (pi : F) (fuel : Nat)
    (quat : quat_t F) : Option (euler_t F) :=
  let x := quat.x
  let y := quat.y
  let z := quat.z
  let w := quat.w
  let ww := w * w
  let xx := x * x
  let yy := y * y
  let zz := z * z
  match normalize_euler_0_2pi rnd pi fuel
      (atan2 (2 * (x * y + z * w)) (xx - yy - zz + ww)) with
  | none => none
  | some yaw =>
    some { yaw := yaw,
           pitch := asinf asin (-2 * (x * z - y * w)),
           roll := atan2 (2 * (y * z + x * w)) (-xx - yy + zz + ww) }

/-- The function `quat_to_lh_rot_matrix(q, m)`: the sixteen entries `m[0] .. m[15]`
    (column major order) in the order they are written. -/
def quat_to_lh_rot_matrix (sqrt : F → F) (q : quat_t F) : List F :=
  let qn := quat_normalize sqrt q
  let qw := qn.w
  let qx := qn.x
  let qy := qn.y
  let qz := qn.z
  [ 1 - 2 * qy * qy - 2 * qz * qz,
    2 * qx * qy - 2 * qz * qw,
    2 * qx * qz + 2 * qy * qw,
    0,
    2 * qx * qy + 2 * qz * qw,
    1 - 2 * qx * qx - 2 * qz * qz,
    2 * qy * qz - 2 * qx * qw,
    0,
    2 * qx * qz - 2 * qy * qw,
    2 * qy * qz + 2 * qx * qw,
    1 - 2 * qx * qx - 2 * qy * qy,
    0,
    0,
    0,
    0,
    1 ]

/-- The function `quat_apply_relative_yaw_pitch(q, yaw, pitch)`: the value stored in
    `*q`, which is also the one returned. -/
def quat_apply_relative_yaw_pitch (sin cos : F → F)
    (q : quat_t F) (yaw pitch : F) : quat_t F :=
  let qyaw := quat_init_axis sin cos 0 1 0 yaw
  let qpitch := quat_init_axis sin cos 0 0 1 pitch
  let q1 := quat_mul qyaw q
  let q := quat_mul q1 qpitch
  q

/-! ## The same functions with the rounding of the values assigned to a `float` -/

end Defs

/-! ## Rounding to binary32 -/

section Binary32

variable {F : Type} [LinearOrderedField F] [FloorRing F]

/-- Rounding to the nearest integer, ties to the even one. -/
def round_half_even (t : F) : ℤ :=
  let f := ⌊t⌋
  if t - f < 1 / 2 then f
  else if 1 / 2 < t - f then f + 1
  else if f % 2 = 0 then f else f + 1

/-- The value of a `float` assigned `x`: the binary32 number nearest to `x`, ties to
    the even significand.  With `2 ^ e ≤ |x| < 2 ^ (e + 1)` the significand has 24
    bits, so the result is a multiple of `2 ^ (e - 23)`.  The exponent range
    (overflow, subnormal numbers) is not modelled. -/
def f32_round (x : F) : F :=
  if x = 0 then 0
  else
    let e := Int.log 2 |x|
    let u : F := 2 ^ (e - 23)
    (round_half_even (x / u) : F) * u

end Binary32

/-! ## Specification-side notions -/

section SpecDefs

variable {F : Type} [LinearOrderedField F]

/-- A unit quaternion, as the data model states it: `w² + x² + y² + z² = 1`. -/
def unit_quat (q : quat_t F) : Prop :=
  q.w ^ 2 + q.x ^ 2 + q.y ^ 2 + q.z ^ 2 = 1

/-- The pure quaternion `(0, v)` of a vector `v`. -/
def pure_quat (v : vec3_t F) : quat_t F :=
  { w := 0, x := v.x, y := v.y, z := v.z }

/-- The `(x, y, z)` part of a quaternion. -/
def vec_part (q : quat_t F) : vec3_t F :=
  { x := q.x, y := q.y, z := q.z }

/-- The sandwich product `q ⊗ (0, v) ⊗ conj q` of the specification, built from
    `quat_mul` and `quat_conj`. -/
def sandwich (q : quat_t F) (v : vec3_t F) : quat_t F :=
  quat_mul (quat_mul q (pure_quat v)) (quat_conj q)

/-- The squared length `w² + x² + y² + z²`, the argument of `sqrtf` in `quat_len`. -/
def normsq (q : quat_t F) : F :=
  q.w * q.w + q.x * q.x + q.y * q.y + q.z * q.z

/-- The negation of all four components of a quaternion. -/
def quat_neg (q : quat_t F) : quat_t F :=
  { w := -q.w, x := -q.x, y := -q.y, z := -q.z }

/-- The zero vector. -/
def vec3_zero : vec3_t F := { x := 0, y := 0, z := 0 }

/-- The zero quaternion. -/
def quat_zero : quat_t F := { w := 0, x := 0, y := 0, z := 0 }

/-- The standard basis vector `e_j` for `j = 0, 1, 2`. -/
def basis_vec (j : Fin 3) : vec3_t F :=
  match j with
  | 0 => { x := 1, y := 0, z := 0 }
  | 1 => { x := 0, y := 1, z := 0 }
  | 2 => { x := 0, y := 0, z := 1 }

/-- The column `(m[4j], m[4j+1], m[4j+2])` of a matrix stored in column major
    order, for `j = 0, 1, 2`. -/
def matrix_column (m : List F) (j : Fin 3) : Option (vec3_t F) :=
  match m[4 * j.val]?, m[4 * j.val + 1]?, m[4 * j.val + 2]? with
  | some a, some b, some c => some { x := a, y := b, z := c }
  | _, _, _ => none

/-- The negation of all three components of a vector. -/
def vec3_neg (v : vec3_t F) : vec3_t F :=
  { x := -v.x, y := -v.y, z := -v.z }

/-- The entry in row `i`, column `j` of the upper-left 3x3 block of a matrix stored
    in column major order: `m[4j + i]`. -/
def block_entry (m : List F) (i j : Fin 3) : Option F :=
  m[4 * j.val + i.val]?

end SpecDefs

/-! ## Shared lemmas -/

section Lemmas

variable {F : Type} [LinearOrderedField F]

theorem quat_len_eq (sqrt : F → F) (q : quat_t F) :
    quat_len sqrt q = sqrt (q.w * q.w + q.x * q.x + q.y * q.y + q.z * q.z) := by
  have h : quat_len sqrt q = sqrt (0 + q.w * q.w + q.x * q.x + q.y * q.y + q.z * q.z) := rfl
  rw [h, zero_add]

theorem quat_dot_eq (a b : quat_t F) :
    quat_dot a b = a.w * b.w + a.x * b.x + a.y * b.y + a.z * b.z := rfl

theorem vec3_dot_eq (a b : vec3_t F) :
    vec3_dot a b = a.x * b.x + a.y * b.y + a.z * b.z := rfl

theorem quat_scale_eq (q : quat_t F) (f : F) :
    quat_scale q f = { w := q.w * f, x := q.x * f, y := q.y * f, z := q.z * f } := rfl

end Lemmas

/-! ## Lemmas on unit quaternions over the reals -/

section RealLemmas

theorem unit_quat_iff_normsq {F : Type} [LinearOrderedField F] (q : quat_t F) :
    unit_quat q ↔ normsq q = 1 := by
  unfold unit_quat normsq
  constructor <;> intro h <;> linear_combination h

theorem quat_len_eq_sqrt_normsq {F : Type} [LinearOrderedField F] (sqrt : F → F)
    (q : quat_t F) : quat_len sqrt q = sqrt (normsq q) :=
  quat_len_eq sqrt q

theorem normsq_nonneg (q : quat_t ℝ) : 0 ≤ normsq q := by
  unfold normsq
  nlinarith [mul_self_nonneg q.w, mul_self_nonneg q.x, mul_self_nonneg q.y,
    mul_self_nonneg q.z]

theorem quat_len_of_unit (q : quat_t ℝ) (hq : unit_quat q) : quat_len Real.sqrt q = 1 := by
  rw [quat_len_eq_sqrt_normsq, (unit_quat_iff_normsq q).mp hq, Real.sqrt_one]

theorem quat_len_eq_one_iff (q : quat_t ℝ) : quat_len Real.sqrt q = 1 ↔ unit_quat q := by
  rw [quat_len_eq_sqrt_normsq, unit_quat_iff_normsq, Real.sqrt_eq_one]

theorem normsq_quat_mul {F : Type} [LinearOrderedField F] (a b : quat_t F) :
    normsq (quat_mul a b) = normsq a * normsq b := by
  simp only [normsq, quat_mul]
  ring

theorem normsq_quat_scale {F : Type} [LinearOrderedField F] (q : quat_t F) (f : F) :
    normsq (quat_scale q f) = normsq q * (f * f) := by
  simp only [normsq, quat_scale_eq]
  ring

/-- Normalizing a quaternion of non-zero squared length gives a unit quaternion. -/
theorem unit_quat_normalize (q : quat_t ℝ) (hq : 0 < normsq q) :
    unit_quat (quat_normalize Real.sqrt q) := by
  rw [unit_quat_iff_normsq]
  unfold quat_normalize
  rw [normsq_quat_scale, quat_len_eq_sqrt_normsq]
  have hm : Real.sqrt (normsq q) * Real.sqrt (normsq q) = normsq q :=
    Real.mul_self_sqrt hq.le
  rw [one_div, ← mul_inv, hm]
  exact mul_inv_cancel₀ hq.ne'

/-- Normalizing a unit quaternion changes nothing. -/
theorem quat_normalize_of_unit (q : quat_t ℝ) (hq : unit_quat q) :
    quat_normalize Real.sqrt q = q := by
  unfold quat_normalize
  rw [quat_len_of_unit q hq, quat_scale_eq]
  simp

theorem quat_dot_le_one (a b : quat_t ℝ) (ha : unit_quat a) (hb : unit_quat b) :
    quat_dot a b ≤ 1 := by
  unfold unit_quat at ha hb
  rw [quat_dot_eq]
  nlinarith [sq_nonneg (a.w - b.w), sq_nonneg (a.x - b.x), sq_nonneg (a.y - b.y),
    sq_nonneg (a.z - b.z)]

theorem neg_one_le_quat_dot (a b : quat_t ℝ) (ha : unit_quat a) (hb : unit_quat b) :
    -1 ≤ quat_dot a b := by
  unfold unit_quat at ha hb
  rw [quat_dot_eq]
  nlinarith [sq_nonneg (a.w + b.w), sq_nonneg (a.x + b.x), sq_nonneg (a.y + b.y),
    sq_nonneg (a.z + b.z)]

/-- Two unit quaternions whose dot product reaches 1 are equal. -/
theorem eq_of_one_le_quat_dot (a b : quat_t ℝ) (ha : unit_quat a) (hb : unit_quat b)
    (h : 1 ≤ quat_dot a b) : a = b := by
  unfold unit_quat at ha hb
  rw [quat_dot_eq] at h
  have e1 := sq_nonneg (a.w - b.w)
  have e2 := sq_nonneg (a.x - b.x)
  have e3 := sq_nonneg (a.y - b.y)
  have e4 := sq_nonneg (a.z - b.z)
  have h1 : (a.w - b.w) ^ 2 = 0 := by nlinarith
  have h2 : (a.x - b.x) ^ 2 = 0 := by nlinarith
  have h3 : (a.y - b.y) ^ 2 = 0 := by nlinarith
  have h4 : (a.z - b.z) ^ 2 = 0 := by nlinarith
  ext
  · exact sub_eq_zero.mp (pow_eq_zero_iff two_ne_zero |>.mp h1)
  · exact sub_eq_zero.mp (pow_eq_zero_iff two_ne_zero |>.mp h2)
  · exact sub_eq_zero.mp (pow_eq_zero_iff two_ne_zero |>.mp h3)
  · exact sub_eq_zero.mp (pow_eq_zero_iff two_ne_zero |>.mp h4)

theorem sin_arccos_pos (c : ℝ) (h0 : 0 ≤ c) (h1 : c < 1) : 0 < Real.sin (Real.arccos c) := by
  rw [Real.sin_arccos]
  apply Real.sqrt_pos.mpr
  nlinarith

/-- The squared length of a blend `s0 * a + s1 * b` of two unit quaternions. -/
theorem normsq_blend (a b : quat_t ℝ) (ha : unit_quat a) (hb : unit_quat b) (s0 s1 : ℝ) :
    normsq { x := s0 * a.x + s1 * b.x, y := s0 * a.y + s1 * b.y,
             z := s0 * a.z + s1 * b.z, w := s0 * a.w + s1 * b.w }
      = s0 * s0 + s1 * s1 + 2 * s0 * s1 * quat_dot a b := by
  unfold unit_quat at ha hb
  simp only [normsq, quat_dot_eq]
  linear_combination (s0 * s0) * ha + (s1 * s1) * hb

theorem unit_quat_neg (b : quat_t ℝ) (hb : unit_quat b) : unit_quat (quat_neg b) := by
  unfold unit_quat at hb ⊢
  simp only [quat_neg]
  linear_combination hb

theorem quat_dot_neg (a b : quat_t ℝ) : quat_dot a (quat_neg b) = -quat_dot a b := by
  simp only [quat_dot_eq, quat_neg]
  ring

/-- The coefficients of the spherical branch of `quat_slerp` blend two unit
    quaternions at angle `arccos c` into a quaternion of squared length 1. -/
theorem slerp_coeff_identity (c t : ℝ) (h0 : 0 ≤ c) (h1 : c < 1) :
    (Real.sin ((1 - t) * Real.arccos c) / Real.sin (Real.arccos c)) *
        (Real.sin ((1 - t) * Real.arccos c) / Real.sin (Real.arccos c)) +
      (Real.sin (t * Real.arccos c) / Real.sin (Real.arccos c)) *
        (Real.sin (t * Real.arccos c) / Real.sin (Real.arccos c)) +
      2 * (Real.sin ((1 - t) * Real.arccos c) / Real.sin (Real.arccos c)) *
        (Real.sin (t * Real.arccos c) / Real.sin (Real.arccos c)) * c = 1 := by
  have hS := sin_arccos_pos c h0 h1
  have hC : Real.cos (Real.arccos c) = c := Real.cos_arccos (by linarith) (by linarith)
  have hexp : Real.sin ((1 - t) * Real.arccos c) =
      Real.sin (Real.arccos c) * Real.cos (t * Real.arccos c) -
        Real.cos (Real.arccos c) * Real.sin (t * Real.arccos c) := by
    rw [show (1 - t) * Real.arccos c = Real.arccos c - t * Real.arccos c by ring, Real.sin_sub]
  rw [hexp, hC]
  have hsc := Real.sin_sq_add_cos_sq (t * Real.arccos c)
  have hsc2 := Real.sin_sq_add_cos_sq (Real.arccos c)
  rw [hC] at hsc2
  field_simp
  linear_combination (Real.sin (Real.arccos c)) ^ 2 * hsc -
    (Real.sin (t * Real.arccos c)) ^ 2 * hsc2

end RealLemmas

/-! ## Rotation of vectors: sandwich product, round trip, composition -/

section Rotation

variable {F : Type} [LinearOrderedField F]

/-- C1: for every quaternion `q` and vector `v`, the sandwich product
    `quat_mul (quat_mul q (0, v)) (quat_conj q)` has `w = 0` and its `(x, y, z)`
    part is `quat_rot_vec v q`. -/
theorem quat_rot_vec_eq_sandwich (q : quat_t F) (v : vec3_t F) :
    (sandwich q v).w = 0 ∧ vec_part (sandwich q v) = quat_rot_vec v q := by
  refine ⟨?_, ?_⟩
  · simp only [sandwich, pure_quat, quat_mul, quat_conj]
    ring
  · ext <;> simp only [vec_part, sandwich, pure_quat, quat_mul, quat_conj, quat_rot_vec] <;> ring

/-- C2: for every unit quaternion `q` and every vector `v`, rotating `v` by `q` and
    then by `quat_conj q` gives `v` back. -/
theorem quat_rot_vec_round_trip (q : quat_t F) (v : vec3_t F) (hq : unit_quat q) :
    quat_rot_vec (quat_rot_vec v q) (quat_conj q) = v := by
  unfold unit_quat at hq
  ext <;> simp only [quat_conj, quat_rot_vec]
  · linear_combination (q.w ^ 2 + q.x ^ 2 + q.y ^ 2 + q.z ^ 2 + 1) * v.x * hq
  · linear_combination (q.w ^ 2 + q.x ^ 2 + q.y ^ 2 + q.z ^ 2 + 1) * v.y * hq
  · linear_combination (q.w ^ 2 + q.x ^ 2 + q.y ^ 2 + q.z ^ 2 + 1) * v.z * hq

/-- Witness of C2 at `q = (1/2, 1/2, 1/2, 1/2)`, `v = (1, 2, 3)`. -/
theorem quat_rot_vec_round_trip_witness :
    unit_quat ({ w := 1/2, x := 1/2, y := 1/2, z := 1/2 } : quat_t ℚ) ∧
      quat_rot_vec (quat_rot_vec ({ x := 1, y := 2, z := 3 } : vec3_t ℚ)
        { w := 1/2, x := 1/2, y := 1/2, z := 1/2 })
        (quat_conj { w := 1/2, x := 1/2, y := 1/2, z := 1/2 }) = { x := 1, y := 2, z := 3 } :=
  ⟨by norm_num [unit_quat],
   quat_rot_vec_round_trip _ _ (by norm_num [unit_quat])⟩

/-- C3: for all quaternions `a`, `b` and every vector `v`, rotating by
    `quat_mul a b` is rotating by `b` first and then by `a`. -/
theorem quat_rot_vec_mul (a b : quat_t F) (v : vec3_t F) :
    quat_rot_vec v (quat_mul a b) = quat_rot_vec (quat_rot_vec v b) a := by
  ext <;> simp only [quat_mul, quat_rot_vec] <;> ring

end Rotation

/-! ## Interpolation: squared length of the blends -/

section InterpolationLemmas

/-- The squared length of the output of `quat_lerp` on unit quaternions. -/
theorem normsq_quat_lerp (a b : quat_t ℝ) (ha : unit_quat a) (hb : unit_quat b) (t : ℝ) :
    normsq (quat_lerp a b t) =
      if 1 ≤ quat_dot a b then 1 else 1 - 2 * t * (1 - t) * (1 - |quat_dot a b|) := by
  unfold quat_lerp
  simp only [ge_iff_le]
  by_cases h1 : 1 ≤ quat_dot a b
  · rw [if_pos h1, if_pos h1]
    exact (unit_quat_iff_normsq a).mp ha
  · rw [if_neg h1, if_neg h1]
    by_cases h0 : quat_dot a b < 0
    · rw [if_pos h0]
      have hn := normsq_blend a (quat_neg b) ha (unit_quat_neg b hb) (1 - t) t
      rw [quat_dot_neg] at hn
      simp only [quat_neg] at hn
      rw [hn, abs_of_neg h0]
      ring
    · rw [if_neg h0]
      rw [normsq_blend a b ha hb, abs_of_nonneg (not_lt.mp h0)]
      ring

/-- The squared length of the output of `quat_slerp` on unit quaternions: 1 in the
    early return and in the spherical branch, and that of the linear blend in the
    branch taken when `0.99995 ≤ |cosom|`. -/
theorem normsq_quat_slerp (a b : quat_t ℝ) (ha : unit_quat a) (hb : unit_quat b) (t : ℝ) :
    normsq (quat_slerp Real.sin Real.arccos a b t) =
      if 1 ≤ quat_dot a b ∨ |quat_dot a b| < 0.99995 then 1
      else 1 - 2 * t * (1 - t) * (1 - |quat_dot a b|) := by
  unfold quat_slerp
  simp only [ge_iff_le]
  by_cases h1 : 1 ≤ quat_dot a b
  · rw [if_pos h1, if_pos (Or.inl h1)]
    exact (unit_quat_iff_normsq a).mp ha
  · rw [if_neg h1]
    by_cases h0 : quat_dot a b < 0
    · simp only [if_pos h0]
      have hn := fun s0 s1 => normsq_blend a (quat_neg b) ha (unit_quat_neg b hb) s0 s1
      simp only [quat_dot_neg] at hn
      simp only [quat_neg] at hn
      rw [abs_of_neg h0]
      by_cases hc : -quat_dot a b < 0.99995
      · rw [if_pos (Or.inr hc)]
        simp only [if_pos hc]
        rw [hn]
        have hid := slerp_coeff_identity (-quat_dot a b) t (by linarith)
          (by norm_num at hc; linarith)
        linear_combination hid
      · have hno : ¬ (1 ≤ quat_dot a b ∨ -quat_dot a b < 0.99995) := by
          rintro (h | h)
          · exact h1 h
          · exact hc h
        rw [if_neg hno]
        simp only [if_neg hc]
        rw [hn]
        ring
    · simp only [if_neg h0]
      rw [abs_of_nonneg (not_lt.mp h0)]
      by_cases hc : quat_dot a b < 0.99995
      · rw [if_pos (Or.inr hc)]
        simp only [if_pos hc]
        rw [normsq_blend a b ha hb]
        have hid := slerp_coeff_identity (quat_dot a b) t (not_lt.mp h0)
          (by norm_num at hc; linarith)
        linear_combination hid
      · have hno : ¬ (1 ≤ quat_dot a b ∨ quat_dot a b < 0.99995) := by
          rintro (h | h)
          · exact h1 h
          · exact hc h
        rw [if_neg hno]
        simp only [if_neg hc]
        rw [normsq_blend a b ha hb]
        ring

end InterpolationLemmas

/-! ## Interpolation: endpoints and unit length -/

section Interpolation

/-- C6 (as amended): for all unit quaternions `a`, `b`, `quat_slerp a b 1` is `b` when
    `quat_dot a b ≥ 0`, and is `-b`, the negation of all four components of `b`,
    when `quat_dot a b < 0` (the adjustment for the shortest path). -/
theorem quat_slerp_at_one (a b : quat_t ℝ) (ha : unit_quat a) (hb : unit_quat b) :
    quat_slerp Real.sin Real.arccos a b 1 = if quat_dot a b < 0 then quat_neg b else b := by
  have hle := quat_dot_le_one a b ha hb
  unfold quat_slerp
  simp only [ge_iff_le]
  by_cases h1 : 1 ≤ quat_dot a b
  · have hab := eq_of_one_le_quat_dot a b ha hb h1
    have hn : ¬ quat_dot a b < 0 := by linarith
    rw [if_pos h1, if_neg hn]
    exact hab
  · rw [if_neg h1]
    by_cases h0 : quat_dot a b < 0
    · simp only [if_pos h0]
      by_cases hc : -quat_dot a b < 0.99995
      · have hs := sin_arccos_pos (-quat_dot a b) (by linarith) (by norm_num at hc ⊢; linarith)
        simp only [if_pos hc, sub_self, zero_mul, Real.sin_zero, zero_div, one_mul,
          div_self hs.ne', zero_add, quat_neg]
      · simp only [if_neg hc, sub_self, zero_mul, one_mul, zero_add, quat_neg]
    · simp only [if_neg h0]
      by_cases hc : quat_dot a b < 0.99995
      · have hs := sin_arccos_pos (quat_dot a b) (by linarith) (by norm_num at hc ⊢; linarith)
        simp only [if_pos hc, sub_self, zero_mul, Real.sin_zero, zero_div, one_mul,
          div_self hs.ne', zero_add]
      · simp only [if_neg hc, sub_self, zero_mul, one_mul, zero_add]

/-- Witness of C6 at `a = (1, 0, 0, 0)`, `b = (3/5, 4/5, 0, 0)`. -/
theorem quat_slerp_at_one_witness :
    unit_quat ({ w := 1, x := 0, y := 0, z := 0 } : quat_t ℝ) ∧
    unit_quat ({ w := 3/5, x := 4/5, y := 0, z := 0 } : quat_t ℝ) ∧
    quat_slerp Real.sin Real.arccos ({ w := 1, x := 0, y := 0, z := 0 } : quat_t ℝ)
      { w := 3/5, x := 4/5, y := 0, z := 0 } 1 = { w := 3/5, x := 4/5, y := 0, z := 0 } := by
  have hu1 : unit_quat ({ w := 1, x := 0, y := 0, z := 0 } : quat_t ℝ) := by
    norm_num [unit_quat]
  have hu2 : unit_quat ({ w := 3/5, x := 4/5, y := 0, z := 0 } : quat_t ℝ) := by
    norm_num [unit_quat]
  have hd : ¬ quat_dot ({ w := 1, x := 0, y := 0, z := 0 } : quat_t ℝ)
      { w := 3/5, x := 4/5, y := 0, z := 0 } < 0 := by
    norm_num [quat_dot_eq]
  have hv := quat_slerp_at_one _ _ hu1 hu2
  rw [if_neg hd] at hv
  exact ⟨hu1, hu2, hv⟩

/-- Counterexample to C6 as stated: `a = (1, 0, 0, 0)` and `b = (-3/5, 4/5, 0, 0)` are
    unit quaternions and `quat_slerp a b 1` is `(3/5, -4/5, 0, 0)`, which is not `b`. -/
theorem quat_slerp_at_one_counterexample :
    unit_quat ({ w := 1, x := 0, y := 0, z := 0 } : quat_t ℝ) ∧
    unit_quat ({ w := -3/5, x := 4/5, y := 0, z := 0 } : quat_t ℝ) ∧
    quat_slerp Real.sin Real.arccos ({ w := 1, x := 0, y := 0, z := 0 } : quat_t ℝ)
      { w := -3/5, x := 4/5, y := 0, z := 0 } 1 = { w := 3/5, x := -4/5, y := 0, z := 0 } ∧
    quat_slerp Real.sin Real.arccos ({ w := 1, x := 0, y := 0, z := 0 } : quat_t ℝ)
      { w := -3/5, x := 4/5, y := 0, z := 0 } 1 ≠ { w := -3/5, x := 4/5, y := 0, z := 0 } := by
  have hu1 : unit_quat ({ w := 1, x := 0, y := 0, z := 0 } : quat_t ℝ) := by
    norm_num [unit_quat]
  have hu2 : unit_quat ({ w := -3/5, x := 4/5, y := 0, z := 0 } : quat_t ℝ) := by
    norm_num [unit_quat]
  have hd : quat_dot ({ w := 1, x := 0, y := 0, z := 0 } : quat_t ℝ)
      { w := -3/5, x := 4/5, y := 0, z := 0 } = -3/5 := by
    norm_num [quat_dot_eq]
  have hs : Real.sin (Real.arccos (3/5)) ≠ 0 :=
    (sin_arccos_pos (3/5) (by norm_num) (by norm_num)).ne'
  have e1 : ¬ ((1 : ℝ) ≤ -3/5) := by norm_num
  have e2 : (-3/5 : ℝ) < 0 := by norm_num
  have e3 : -(-3/5 : ℝ) < 0.99995 := by norm_num
  have e4 : -(-3/5 : ℝ) = 3/5 := by norm_num
  have hv : quat_slerp Real.sin Real.arccos ({ w := 1, x := 0, y := 0, z := 0 } : quat_t ℝ)
      { w := -3/5, x := 4/5, y := 0, z := 0 } 1 = { w := 3/5, x := -4/5, y := 0, z := 0 } := by
    unfold quat_slerp
    simp only [hd, ge_iff_le, if_neg e1, if_pos e2, if_pos e3, sub_self, zero_mul,
      Real.sin_zero, zero_div, one_mul, zero_add]
    rw [e4, div_self hs]
    norm_num
  refine ⟨hu1, hu2, hv, ?_⟩
  rw [hv]
  intro h
  have hw := congrArg quat_t.w h
  norm_num at hw

/-- C7 (as amended): for all unit quaternions `qfrom`, `qto` and every real `t`, the
    output of `quat_slerp` has length 1 exactly when the spherical branch is taken
    (`|cosom| < 0.99995`), or `|cosom| ≥ 1` (`qto` is `qfrom` or `-qfrom`), or `t` is
    0 or 1; in the linear branch it is not unit for any other `t`. -/
theorem quat_slerp_len_eq_one_iff (qfrom qto : quat_t ℝ) (hf : unit_quat qfrom)
    (ht : unit_quat qto) (t : ℝ) :
    quat_len Real.sqrt (quat_slerp Real.sin Real.arccos qfrom qto t) = 1 ↔
      (|quat_dot qfrom qto| < 0.99995 ∨ 1 ≤ |quat_dot qfrom qto| ∨ t = 0 ∨ t = 1) := by
  have hle := quat_dot_le_one qfrom qto hf ht
  have hge := neg_one_le_quat_dot qfrom qto hf ht
  have habs : |quat_dot qfrom qto| ≤ 1 := abs_le.mpr ⟨hge, hle⟩
  rw [quat_len_eq_one_iff, unit_quat_iff_normsq, normsq_quat_slerp qfrom qto hf ht]
  by_cases hc : 1 ≤ quat_dot qfrom qto ∨ |quat_dot qfrom qto| < 0.99995
  · rw [if_pos hc]
    refine ⟨fun _ => ?_, fun _ => rfl⟩
    rcases hc with h | h
    · exact Or.inr (Or.inl (le_trans h (le_abs_self _)))
    · exact Or.inl h
  · rw [if_neg hc]
    have hlin : ¬ |quat_dot qfrom qto| < 0.99995 := fun h => hc (Or.inr h)
    constructor
    · intro h
      have hz : t * ((1 - t) * (1 - |quat_dot qfrom qto|)) = 0 := by linarith
      rcases mul_eq_zero.mp hz with h0 | h0
      · exact Or.inr (Or.inr (Or.inl h0))
      · rcases mul_eq_zero.mp h0 with h1 | h1
        · exact Or.inr (Or.inr (Or.inr (by linarith)))
        · exact Or.inr (Or.inl (by linarith))
    · rintro (h | h | h | h)
      · exact absurd h hlin
      · have : |quat_dot qfrom qto| = 1 := le_antisymm habs h
        rw [this]
        ring
      · rw [h]
        ring
      · rw [h]
        ring

/-- Witness of C7 at `qfrom = (1, 0, 0, 0)`, `qto = (3/5, 4/5, 0, 0)`, `t = 1/3`. -/
theorem quat_slerp_len_eq_one_iff_witness :
    unit_quat ({ w := 1, x := 0, y := 0, z := 0 } : quat_t ℝ) ∧
    unit_quat ({ w := 3/5, x := 4/5, y := 0, z := 0 } : quat_t ℝ) ∧
    quat_len Real.sqrt (quat_slerp Real.sin Real.arccos
      ({ w := 1, x := 0, y := 0, z := 0 } : quat_t ℝ)
      { w := 3/5, x := 4/5, y := 0, z := 0 } (1/3)) = 1 := by
  have hu1 : unit_quat ({ w := 1, x := 0, y := 0, z := 0 } : quat_t ℝ) := by
    norm_num [unit_quat]
  have hu2 : unit_quat ({ w := 3/5, x := 4/5, y := 0, z := 0 } : quat_t ℝ) := by
    norm_num [unit_quat]
  refine ⟨hu1, hu2, (quat_slerp_len_eq_one_iff _ _ hu1 hu2 (1/3)).mpr (Or.inl ?_)⟩
  norm_num [quat_dot_eq, abs_lt]

/-- Counterexample to C7 as stated: `qfrom = (1, 0, 0, 0)` and
    `qto = (999999/1000001, 2000/1000001, 0, 0)` are unit quaternions with
    `0.99995 ≤ cosom < 1`, and at `t = 1/2` the output of `quat_slerp` has squared
    length `1000000/1000001`, so its length is not 1. -/
theorem quat_slerp_len_counterexample :
    unit_quat ({ w := 1, x := 0, y := 0, z := 0 } : quat_t ℝ) ∧
    unit_quat ({ w := 999999/1000001, x := 2000/1000001, y := 0, z := 0 } : quat_t ℝ) ∧
    normsq (quat_slerp Real.sin Real.arccos ({ w := 1, x := 0, y := 0, z := 0 } : quat_t ℝ)
      { w := 999999/1000001, x := 2000/1000001, y := 0, z := 0 } (1/2)) = 1000000/1000001 ∧
    quat_len Real.sqrt (quat_slerp Real.sin Real.arccos
      ({ w := 1, x := 0, y := 0, z := 0 } : quat_t ℝ)
      { w := 999999/1000001, x := 2000/1000001, y := 0, z := 0 } (1/2)) ≠ 1 := by
  have hu1 : unit_quat ({ w := 1, x := 0, y := 0, z := 0 } : quat_t ℝ) := by
    norm_num [unit_quat]
  have hu2 : unit_quat
      ({ w := 999999/1000001, x := 2000/1000001, y := 0, z := 0 } : quat_t ℝ) := by
    norm_num [unit_quat]
  have hd : quat_dot ({ w := 1, x := 0, y := 0, z := 0 } : quat_t ℝ)
      { w := 999999/1000001, x := 2000/1000001, y := 0, z := 0 } = 999999/1000001 := by
    norm_num [quat_dot_eq]
  have hn := normsq_quat_slerp _ _ hu1 hu2 (1/2)
  rw [hd] at hn
  have hcond : ¬ ((1 : ℝ) ≤ 999999/1000001 ∨ |(999999/1000001 : ℝ)| < 0.99995) := by
    rw [abs_of_pos (by norm_num)]
    norm_num
  rw [if_neg hcond, abs_of_pos (by norm_num)] at hn
  have hval : normsq (quat_slerp Real.sin Real.arccos
      ({ w := 1, x := 0, y := 0, z := 0 } : quat_t ℝ)
      { w := 999999/1000001, x := 2000/1000001, y := 0, z := 0 } (1/2))
        = 1000000/1000001 := by
    rw [hn]
    norm_num
  refine ⟨hu1, hu2, hval, ?_⟩
  rw [quat_len_eq_sqrt_normsq, hval]
  intro h
  rw [Real.sqrt_eq_one] at h
  norm_num at h

/-- C8: for all unit quaternions `qfrom`, `qto` and every real `t`, the blend computed
    by `quat_lerp` is not the zero quaternion and `quat_nlerp` returns a quaternion
    of length 1. -/
theorem quat_nlerp_unit (qfrom qto : quat_t ℝ) (hf : unit_quat qfrom) (ht : unit_quat qto)
    (t : ℝ) :
    quat_lerp qfrom qto t ≠ { w := 0, x := 0, y := 0, z := 0 } ∧
      quat_len Real.sqrt (quat_nlerp Real.sqrt qfrom qto t) = 1 := by
  have hle := quat_dot_le_one qfrom qto hf ht
  have hge := neg_one_le_quat_dot qfrom qto hf ht
  have habs : |quat_dot qfrom qto| ≤ 1 := abs_le.mpr ⟨hge, hle⟩
  have habs0 : 0 ≤ |quat_dot qfrom qto| := abs_nonneg _
  have hpos : 0 < normsq (quat_lerp qfrom qto t) := by
    rw [normsq_quat_lerp qfrom qto hf ht]
    by_cases h1 : 1 ≤ quat_dot qfrom qto
    · rw [if_pos h1]
      exact one_pos
    · rw [if_neg h1]
      nlinarith [mul_nonneg (sub_nonneg.mpr habs) (sq_nonneg (2 * t - 1))]
  refine ⟨?_, ?_⟩
  · intro h
    rw [h] at hpos
    norm_num [normsq] at hpos
  · unfold quat_nlerp quat_normalize_self
    exact (quat_len_eq_one_iff _).mpr (unit_quat_normalize _ hpos)

/-- Witness of C8 at `qfrom = (1, 0, 0, 0)`, `qto = (0, 1, 0, 0)`, `t = 1/2`. -/
theorem quat_nlerp_unit_witness :
    unit_quat ({ w := 1, x := 0, y := 0, z := 0 } : quat_t ℝ) ∧
    unit_quat ({ w := 0, x := 1, y := 0, z := 0 } : quat_t ℝ) ∧
    quat_lerp ({ w := 1, x := 0, y := 0, z := 0 } : quat_t ℝ)
      { w := 0, x := 1, y := 0, z := 0 } (1/2) ≠ { w := 0, x := 0, y := 0, z := 0 } ∧
    quat_len Real.sqrt (quat_nlerp Real.sqrt ({ w := 1, x := 0, y := 0, z := 0 } : quat_t ℝ)
      { w := 0, x := 1, y := 0, z := 0 } (1/2)) = 1 :=
  ⟨by norm_num [unit_quat], by norm_num [unit_quat],
   quat_nlerp_unit _ _ (by norm_num [unit_quat]) (by norm_num [unit_quat]) (1/2)⟩

end Interpolation

/-! ## Rotation from one vector onto another -/

section FromU2V

theorem vec3_len2_pos (u : vec3_t ℝ) (hu : u ≠ vec3_zero) : 0 < vec3_len2 u := by
  unfold vec3_len2
  by_contra hcon
  have e1 := mul_self_nonneg u.x
  have e2 := mul_self_nonneg u.y
  have e3 := mul_self_nonneg u.z
  have hx : u.x * u.x = 0 := by linarith
  have hy : u.y * u.y = 0 := by linarith
  have hz : u.z * u.z = 0 := by linarith
  apply hu
  ext
  · exact mul_self_eq_zero.mp hx
  · exact mul_self_eq_zero.mp hy
  · exact mul_self_eq_zero.mp hz

/-- A non-zero vector is normalized to a vector of squared length 1. -/
theorem vec3_len2_normalize (u : vec3_t ℝ) (hu : u ≠ vec3_zero) :
    vec3_len2 (vec3_normalize Real.sqrt u) = 1 := by
  have hpos := vec3_len2_pos u hu
  have hs : 0 < Real.sqrt (vec3_len2 u) := Real.sqrt_pos.mpr hpos
  have hm : Real.sqrt (vec3_len2 u) * Real.sqrt (vec3_len2 u) = vec3_len2 u :=
    Real.mul_self_sqrt hpos.le
  simp only [vec3_normalize]
  have hl : vec3_len2 u = u.x * u.x + u.y * u.y + u.z * u.z := rfl
  show u.x / Real.sqrt (vec3_len2 u) * (u.x / Real.sqrt (vec3_len2 u)) +
      u.y / Real.sqrt (vec3_len2 u) * (u.y / Real.sqrt (vec3_len2 u)) +
      u.z / Real.sqrt (vec3_len2 u) * (u.z / Real.sqrt (vec3_len2 u)) = 1
  field_simp
  exact hl.symm

/-- The dot product of two vectors of squared length 1 lies in `[-1, 1]`. -/
theorem vec3_dot_abs_le_one (p r : vec3_t ℝ) (hp : vec3_len2 p = 1) (hr : vec3_len2 r = 1) :
    -1 ≤ vec3_dot p r ∧ vec3_dot p r ≤ 1 := by
  rw [vec3_dot_eq]
  unfold vec3_len2 at hp hr
  constructor
  · nlinarith [sq_nonneg (p.x + r.x), sq_nonneg (p.y + r.y), sq_nonneg (p.z + r.z)]
  · nlinarith [sq_nonneg (p.x - r.x), sq_nonneg (p.y - r.y), sq_nonneg (p.z - r.z)]

/-- Lagrange's identity for two vectors of squared length 1. -/
theorem vec3_len2_cross (p r : vec3_t ℝ) (hp : vec3_len2 p = 1) (hr : vec3_len2 r = 1) :
    vec3_len2 (vec3_cross p r) = 1 - vec3_dot p r ^ 2 := by
  unfold vec3_len2 at hp hr
  have hc : vec3_cross p r =
      ⟨p.y * r.z - p.z * r.y, p.z * r.x - p.x * r.z, p.x * r.y - p.y * r.x⟩ := rfl
  rw [hc, vec3_dot_eq]
  simp only [vec3_len2]
  linear_combination (r.x * r.x + r.y * r.y + r.z * r.z) * hp + hr

/-- The algebra of the general branch: the quaternion `(c, n * s)` with
    `n = (p × r) / L`, `L² = 1 - (p·r)²`, `c² - s² = p·r` and `2 s c = L` rotates the
    unit vector `p` onto the unit vector `r`. -/
theorem rot_axis_align (p r : vec3_t ℝ) (L s c : ℝ) (hp : vec3_len2 p = 1)
    (hr : vec3_len2 r = 1) (hL0 : L ≠ 0) (hL : L * L = 1 - vec3_dot p r ^ 2)
    (h1 : c * c - s * s = vec3_dot p r) (h2 : 2 * s * c = L) :
    quat_rot_vec p { w := c, x := (vec3_cross p r).x / L * s,
                     y := (vec3_cross p r).y / L * s, z := (vec3_cross p r).z / L * s } = r := by
  have hc : vec3_cross p r =
      ⟨p.y * r.z - p.z * r.y, p.z * r.x - p.x * r.z, p.x * r.y - p.y * r.x⟩ := rfl
  rw [hc]
  rw [vec3_dot_eq] at hL h1
  unfold vec3_len2 at hp hr
  obtain ⟨nx, hnx⟩ : ∃ nx, nx = (p.y * r.z - p.z * r.y) / L := ⟨_, rfl⟩
  obtain ⟨ny, hny⟩ : ∃ ny, ny = (p.z * r.x - p.x * r.z) / L := ⟨_, rfl⟩
  obtain ⟨nz, hnz⟩ : ∃ nz, nz = (p.x * r.y - p.y * r.x) / L := ⟨_, rfl⟩
  have ex : L * nx = p.y * r.z - p.z * r.y := by rw [hnx]; field_simp
  have ey : L * ny = p.z * r.x - p.x * r.z := by rw [hny]; field_simp
  have ez : L * nz = p.x * r.y - p.y * r.x := by rw [hnz]; field_simp
  have hnp : nx * p.x + ny * p.y + nz * p.z = 0 := by
    have : L * (nx * p.x + ny * p.y + nz * p.z) = 0 := by
      linear_combination p.x * ex + p.y * ey + p.z * ez
    rcases mul_eq_zero.mp this with h | h
    · exact absurd h hL0
    · exact h
  have hnn : nx * nx + ny * ny + nz * nz = 1 := by
    have : (L * L) * (nx * nx + ny * ny + nz * nz - 1) = 0 := by
      linear_combination (L * nx + (p.y * r.z - p.z * r.y)) * ex +
        (L * ny + (p.z * r.x - p.x * r.z)) * ey + (L * nz + (p.x * r.y - p.y * r.x)) * ez -
        hL + (r.x * r.x + r.y * r.y + r.z * r.z) * hp + hr
    rcases mul_eq_zero.mp this with h | h
    · exact absurd (mul_self_eq_zero.mp h) hL0
    · linarith
  have hcx : L * (ny * p.z - nz * p.y) = r.x - (p.x * r.x + p.y * r.y + p.z * r.z) * p.x := by
    linear_combination p.z * ey - p.y * ez + r.x * hp
  have hcy : L * (nz * p.x - nx * p.z) = r.y - (p.x * r.x + p.y * r.y + p.z * r.z) * p.y := by
    linear_combination p.x * ez - p.z * ex + r.y * hp
  have hcz : L * (nx * p.y - ny * p.x) = r.z - (p.x * r.x + p.y * r.y + p.z * r.z) * p.z := by
    linear_combination p.y * ex - p.x * ey + r.z * hp
  simp only [← hnx, ← hny, ← hnz]
  ext <;> simp only [quat_rot_vec]
  · linear_combination (2 * s * s * nx) * hnp - (s * s * p.x) * hnn +
      (ny * p.z - nz * p.y) * h2 + hcx + p.x * h1
  · linear_combination (2 * s * s * ny) * hnp - (s * s * p.y) * hnn +
      (nz * p.x - nx * p.z) * h2 + hcy + p.y * h1
  · linear_combination (2 * s * s * nz) * hnp - (s * s * p.z) * hnn +
      (nx * p.y - ny * p.x) * h2 + hcz + p.z * h1

theorem half_angle (a : ℝ) : a * (0.5 : ℝ) = a / 2 := by
  norm_num
  ring

/-- C4: for all non-zero vectors `u`, `v` whose normalized dot product `d` satisfies
    `|d + 1| ≥ 1e-6` and `|d - 1| ≥ 1e-6`, and for any `up`, the quaternion returned by
    `quat_from_u2v` rotates `vec3_normalize u` onto `vec3_normalize v`. -/
theorem quat_from_u2v_general (u v : vec3_t ℝ) (up : Option (vec3_t ℝ))
    (hu : u ≠ vec3_zero) (hv : v ≠ vec3_zero)
    (h1 : ZERO_TOLERANCE ≤
      |vec3_dot (vec3_normalize Real.sqrt u) (vec3_normalize Real.sqrt v) + 1|)
    (h2 : ZERO_TOLERANCE ≤
      |vec3_dot (vec3_normalize Real.sqrt u) (vec3_normalize Real.sqrt v) - 1|) :
    quat_rot_vec (vec3_normalize Real.sqrt u)
        (quat_from_u2v Real.sqrt Real.sin Real.cos Real.arccos Real.pi u v up)
      = vec3_normalize Real.sqrt v := by
  have hp := vec3_len2_normalize u hu
  have hr := vec3_len2_normalize v hv
  obtain ⟨p, hpdef⟩ : ∃ p, p = vec3_normalize Real.sqrt u := ⟨_, rfl⟩
  obtain ⟨r, hrdef⟩ : ∃ r, r = vec3_normalize Real.sqrt v := ⟨_, rfl⟩
  rw [← hpdef] at hp h1 h2
  rw [← hrdef] at hr h1 h2
  have htol : (0 : ℝ) < ZERO_TOLERANCE := by
    unfold ZERO_TOLERANCE
    norm_num
  have hb := vec3_dot_abs_le_one p r hp hr
  have hd1 : vec3_dot p r ≠ -1 := by
    intro h
    rw [h] at h1
    norm_num at h1
    linarith
  have hd2 : vec3_dot p r ≠ 1 := by
    intro h
    rw [h] at h2
    norm_num at h2
    linarith
  have hlt1 : vec3_dot p r < 1 := lt_of_le_of_ne hb.2 hd2
  have hgt1 : -1 < vec3_dot p r := lt_of_le_of_ne hb.1 (Ne.symm hd1)
  have hlen := vec3_len2_cross p r hp hr
  have hpos : 0 < 1 - vec3_dot p r ^ 2 := by nlinarith
  have hLpos : 0 < Real.sqrt (vec3_len2 (vec3_cross p r)) := by
    rw [hlen]
    exact Real.sqrt_pos.mpr hpos
  have hLL : Real.sqrt (vec3_len2 (vec3_cross p r)) * Real.sqrt (vec3_len2 (vec3_cross p r))
      = 1 - vec3_dot p r ^ 2 := by
    rw [hlen]
    exact Real.mul_self_sqrt hpos.le
  have hcos : Real.cos (Real.arccos (vec3_dot p r) / 2) * Real.cos (Real.arccos (vec3_dot p r) / 2)
      - Real.sin (Real.arccos (vec3_dot p r) / 2) * Real.sin (Real.arccos (vec3_dot p r) / 2)
      = vec3_dot p r := by
    have h := Real.cos_two_mul (Real.arccos (vec3_dot p r) / 2)
    have hsc := Real.sin_sq_add_cos_sq (Real.arccos (vec3_dot p r) / 2)
    rw [show 2 * (Real.arccos (vec3_dot p r) / 2) = Real.arccos (vec3_dot p r) by ring,
      Real.cos_arccos hb.1 hb.2] at h
    linear_combination -h - hsc
  have hsin : 2 * Real.sin (Real.arccos (vec3_dot p r) / 2)
      * Real.cos (Real.arccos (vec3_dot p r) / 2)
      = Real.sqrt (vec3_len2 (vec3_cross p r)) := by
    have h := Real.sin_two_mul (Real.arccos (vec3_dot p r) / 2)
    rw [show 2 * (Real.arccos (vec3_dot p r) / 2) = Real.arccos (vec3_dot p r) by ring,
      Real.sin_arccos] at h
    rw [hlen, ← h]
  have hnot1 : ¬ |vec3_dot p r - -1| < ZERO_TOLERANCE := by
    rw [sub_neg_eq_add]
    exact not_lt.mpr h1
  have hnot2 : ¬ |vec3_dot p r - 1| < ZERO_TOLERANCE := not_lt.mpr h2
  have hq : quat_from_u2v Real.sqrt Real.sin Real.cos Real.arccos Real.pi u v up =
      { w := Real.cos (Real.arccos (vec3_dot p r) / 2),
        x := (vec3_cross p r).x / Real.sqrt (vec3_len2 (vec3_cross p r))
              * Real.sin (Real.arccos (vec3_dot p r) / 2),
        y := (vec3_cross p r).y / Real.sqrt (vec3_len2 (vec3_cross p r))
              * Real.sin (Real.arccos (vec3_dot p r) / 2),
        z := (vec3_cross p r).z / Real.sqrt (vec3_len2 (vec3_cross p r))
              * Real.sin (Real.arccos (vec3_dot p r) / 2) } := by
    unfold quat_from_u2v
    simp only [← hpdef, ← hrdef]
    rw [if_neg hnot1, if_neg hnot2]
    simp only [quat_init_axis, vec3_normalize, half_angle]
  rw [hq, ← hpdef, ← hrdef]
  exact rot_axis_align p r _ _ _ hp hr hLpos.ne' hLL hcos hsin

/-- Witness of C4 at `u = (1, 0, 0)`, `v = (0, 1, 0)`, `up = NULL`. -/
theorem quat_from_u2v_general_witness :
    quat_rot_vec (vec3_normalize Real.sqrt { x := 1, y := 0, z := 0 })
        (quat_from_u2v Real.sqrt Real.sin Real.cos Real.arccos Real.pi
          { x := 1, y := 0, z := 0 } { x := 0, y := 1, z := 0 } none)
      = vec3_normalize Real.sqrt { x := 0, y := 1, z := 0 } := by
  have hn1 : vec3_normalize Real.sqrt ({ x := 1, y := 0, z := 0 } : vec3_t ℝ)
      = { x := 1, y := 0, z := 0 } := by
    simp [vec3_normalize, vec3_len2]
  have hn2 : vec3_normalize Real.sqrt ({ x := 0, y := 1, z := 0 } : vec3_t ℝ)
      = { x := 0, y := 1, z := 0 } := by
    simp [vec3_normalize, vec3_len2]
  apply quat_from_u2v_general
  · intro h
    have hx := congrArg vec3_t.x h
    norm_num [vec3_zero] at hx
  · intro h
    have hy := congrArg vec3_t.y h
    norm_num [vec3_zero] at hy
  · rw [hn1, hn2]
    norm_num [vec3_dot_eq, ZERO_TOLERANCE]
  · rw [hn1, hn2]
    norm_num [vec3_dot_eq, ZERO_TOLERANCE]

/-- C5, the code at the failing input `u = (0, 1, 0)`, `v = -u = (0, -1, 0)`,
    `up = NULL`: `quat_from_u2v` returns `(w = 0, x = 0, y = 1, z = 0)`, which rotates
    `vec3_normalize u = (0, 1, 0)` onto `(0, 1, 0)`, while `vec3_normalize v` is
    `(0, -1, 0)`. -/
theorem quat_from_u2v_opposite_y_axis :
    quat_from_u2v Real.sqrt Real.sin Real.cos Real.arccos Real.pi
        ({ x := 0, y := 1, z := 0 } : vec3_t ℝ) { x := 0, y := -1, z := 0 } none
      = { w := 0, x := 0, y := 1, z := 0 } ∧
    quat_rot_vec (vec3_normalize Real.sqrt { x := 0, y := 1, z := 0 })
        (quat_from_u2v Real.sqrt Real.sin Real.cos Real.arccos Real.pi
          ({ x := 0, y := 1, z := 0 } : vec3_t ℝ) { x := 0, y := -1, z := 0 } none)
      = { x := 0, y := 1, z := 0 } ∧
    vec3_normalize Real.sqrt ({ x := 0, y := -1, z := 0 } : vec3_t ℝ)
      = { x := 0, y := -1, z := 0 } ∧
    quat_rot_vec (vec3_normalize Real.sqrt { x := 0, y := 1, z := 0 })
        (quat_from_u2v Real.sqrt Real.sin Real.cos Real.arccos Real.pi
          ({ x := 0, y := 1, z := 0 } : vec3_t ℝ) { x := 0, y := -1, z := 0 } none)
      ≠ vec3_normalize Real.sqrt ({ x := 0, y := -1, z := 0 } : vec3_t ℝ) := by
  have hn1 : vec3_normalize Real.sqrt ({ x := 0, y := 1, z := 0 } : vec3_t ℝ)
      = { x := 0, y := 1, z := 0 } := by
    simp [vec3_normalize, vec3_len2]
  have hn2 : vec3_normalize Real.sqrt ({ x := 0, y := -1, z := 0 } : vec3_t ℝ)
      = { x := 0, y := -1, z := 0 } := by
    simp [vec3_normalize, vec3_len2]
  have hq : quat_from_u2v Real.sqrt Real.sin Real.cos Real.arccos Real.pi
        ({ x := 0, y := 1, z := 0 } : vec3_t ℝ) { x := 0, y := -1, z := 0 } none
      = { w := 0, x := 0, y := 1, z := 0 } := by
    simp only [quat_from_u2v, hn1, hn2, vec3_dot_eq, quat_init_axis, half_angle,
      ZERO_TOLERANCE]
    norm_num
  have hrot : quat_rot_vec ({ x := 0, y := 1, z := 0 } : vec3_t ℝ)
      { w := 0, x := 0, y := 1, z := 0 } = { x := 0, y := 1, z := 0 } := by
    simp [quat_rot_vec]
  refine ⟨hq, ?_, hn2, ?_⟩
  · rw [hq, hn1, hrot]
  · rw [hq, hn1, hn2, hrot]
    intro h
    have hy := congrArg vec3_t.y h
    norm_num at hy

end FromU2V

/-! ## Incremental rotation and rotation matrix -/

section IncrementalAndMatrix

theorem quat_mul_conj_mul {F : Type} [LinearOrderedField F] (q r : quat_t F)
    (hq : unit_quat q) :
    quat_mul (quat_mul (quat_mul q r) (quat_conj q)) q = quat_mul q r := by
  unfold unit_quat at hq
  ext <;> simp only [quat_mul, quat_conj]
  · linear_combination
      (-q.x * r.x - q.y * r.y - q.z * r.z + q.w * r.w) * hq
  · linear_combination
      (q.x * r.w + q.y * r.z - q.z * r.y + q.w * r.x) * hq
  · linear_combination
      (-q.x * r.z + q.y * r.w + q.z * r.x + q.w * r.y) * hq
  · linear_combination
      (q.x * r.y - q.y * r.x + q.z * r.w + q.w * r.z) * hq

theorem unit_quat_mul {F : Type} [LinearOrderedField F] (a b : quat_t F)
    (ha : unit_quat a) (hb : unit_quat b) : unit_quat (quat_mul a b) := by
  rw [unit_quat_iff_normsq] at ha hb ⊢
  rw [normsq_quat_mul, ha, hb, mul_one]

/-- An axis of squared length 1 and any angle give a unit quaternion. -/
theorem unit_quat_init_axis (x y z a : ℝ) (haxis : x * x + y * y + z * z = 1) :
    unit_quat (quat_init_axis Real.sin Real.cos x y z a) := by
  unfold unit_quat
  simp only [quat_init_axis]
  have hsc := Real.sin_sq_add_cos_sq (a * 0.5)
  linear_combination (Real.sin (a * 0.5)) ^ 2 * haxis + hsc

theorem normsq_pos_of_ne_zero (q : quat_t ℝ) (hq : q ≠ quat_zero) : 0 < normsq q := by
  unfold normsq
  by_contra hcon
  have e0 := mul_self_nonneg q.w
  have e1 := mul_self_nonneg q.x
  have e2 := mul_self_nonneg q.y
  have e3 := mul_self_nonneg q.z
  have hw : q.w * q.w = 0 := by linarith
  have hx : q.x * q.x = 0 := by linarith
  have hy : q.y * q.y = 0 := by linarith
  have hz : q.z * q.z = 0 := by linarith
  apply hq
  ext
  · exact mul_self_eq_zero.mp hw
  · exact mul_self_eq_zero.mp hx
  · exact mul_self_eq_zero.mp hy
  · exact mul_self_eq_zero.mp hz

/-- C9: for every unit quaternion `q` and all `yaw`, `pitch`, `roll`,
    `quat_apply_relative_yaw_pitch_roll` stores in `q` (and returns) exactly
    `quat_mul q delta`, where `delta = quat_mul (quat_mul qyaw qpitch) qroll` with
    `qyaw`, `qpitch`, `qroll` the axis-angle quaternions about `(0,1,0)`, `(0,0,1)`
    and `(1,0,0)`. -/
theorem quat_apply_relative_yaw_pitch_roll_eq (q : quat_t ℝ) (hq : unit_quat q)
    (yaw pitch roll : ℝ) :
    quat_apply_relative_yaw_pitch_roll Real.sqrt Real.sin Real.cos q yaw pitch roll =
      quat_mul q
        (quat_mul
          (quat_mul (quat_init_axis Real.sin Real.cos 0 1 0 yaw)
            (quat_init_axis Real.sin Real.cos 0 0 1 pitch))
          (quat_init_axis Real.sin Real.cos 1 0 0 roll)) := by
  have hy := unit_quat_init_axis 0 1 0 yaw (by norm_num)
  have hp := unit_quat_init_axis 0 0 1 pitch (by norm_num)
  have hr := unit_quat_init_axis 1 0 0 roll (by norm_num)
  have hdelta := unit_quat_mul _ _ (unit_quat_mul _ _ hy hp) hr
  have hprod := unit_quat_mul _ _ hq hdelta
  unfold quat_apply_relative_yaw_pitch_roll quat_normalize_self
  simp only []
  rw [quat_mul_conj_mul q _ hq]
  exact quat_normalize_of_unit _ hprod

/-- Witness of C9 at `q = (1/2, 1/2, 1/2, 1/2)`, `yaw = 1`, `pitch = 2`, `roll = 3`. -/
theorem quat_apply_relative_yaw_pitch_roll_eq_witness :
    unit_quat ({ w := 1/2, x := 1/2, y := 1/2, z := 1/2 } : quat_t ℝ) ∧
    quat_apply_relative_yaw_pitch_roll Real.sqrt Real.sin Real.cos
        ({ w := 1/2, x := 1/2, y := 1/2, z := 1/2 } : quat_t ℝ) 1 2 3 =
      quat_mul ({ w := 1/2, x := 1/2, y := 1/2, z := 1/2 } : quat_t ℝ)
        (quat_mul
          (quat_mul (quat_init_axis Real.sin Real.cos 0 1 0 (1 : ℝ))
            (quat_init_axis Real.sin Real.cos 0 0 1 (2 : ℝ)))
          (quat_init_axis Real.sin Real.cos 1 0 0 (3 : ℝ))) :=
  ⟨by norm_num [unit_quat],
   quat_apply_relative_yaw_pitch_roll_eq _ (by norm_num [unit_quat]) 1 2 3⟩

/-- C10: for every non-zero quaternion `q` with `qn = quat_normalize q`, the matrix
    written by `quat_to_rh_rot_matrix q` has 16 entries, its column
    `(m[4j], m[4j+1], m[4j+2])` is `quat_rot_vec e_j qn` for `j = 0, 1, 2`,
    `m[3] = m[7] = m[11] = m[12] = m[13] = m[14] = 0` and `m[15] = 1`; and the
    identity quaternion yields the 4x4 identity matrix. -/
theorem quat_to_rh_rot_matrix_columns (q : quat_t ℝ) (hq : q ≠ quat_zero) :
    (quat_to_rh_rot_matrix Real.sqrt q).length = 16 ∧
    (∀ j : Fin 3, matrix_column (quat_to_rh_rot_matrix Real.sqrt q) j =
      some (quat_rot_vec (basis_vec j) (quat_normalize Real.sqrt q))) ∧
    (quat_to_rh_rot_matrix Real.sqrt q)[3]? = some 0 ∧
    (quat_to_rh_rot_matrix Real.sqrt q)[7]? = some 0 ∧
    (quat_to_rh_rot_matrix Real.sqrt q)[11]? = some 0 ∧
    (quat_to_rh_rot_matrix Real.sqrt q)[12]? = some 0 ∧
    (quat_to_rh_rot_matrix Real.sqrt q)[13]? = some 0 ∧
    (quat_to_rh_rot_matrix Real.sqrt q)[14]? = some 0 ∧
    (quat_to_rh_rot_matrix Real.sqrt q)[15]? = some 1 ∧
    quat_to_rh_rot_matrix Real.sqrt (identity_quat : quat_t ℝ) =
      [1, 0, 0, 0, 0, 1, 0, 0, 0, 0, 1, 0, 0, 0, 0, 1] := by
  have hn := unit_quat_normalize q (normsq_pos_of_ne_zero q hq)
  obtain ⟨n, hndef⟩ : ∃ n, n = quat_normalize Real.sqrt q := ⟨_, rfl⟩
  rw [← hndef] at hn
  unfold unit_quat at hn
  have hid : quat_normalize Real.sqrt (identity_quat : quat_t ℝ) = identity_quat :=
    quat_normalize_of_unit _ (by norm_num [unit_quat, identity_quat])
  refine ⟨rfl, ?_, rfl, rfl, rfl, rfl, rfl, rfl, rfl, ?_⟩
  · intro j
    unfold quat_to_rh_rot_matrix
    simp only [← hndef]
    fin_cases j
    · simp only [matrix_column, basis_vec, quat_rot_vec]
      simp
      refine ⟨?_, ?_, ?_⟩
      · linear_combination -hn
      · ring
      · ring
    · simp only [matrix_column, basis_vec, quat_rot_vec]
      simp
      refine ⟨?_, ?_, ?_⟩
      · ring
      · linear_combination -hn
      · ring
    · simp only [matrix_column, basis_vec, quat_rot_vec]
      simp
      refine ⟨?_, ?_, ?_⟩
      · ring
      · ring
      · linear_combination -hn
  · unfold quat_to_rh_rot_matrix
    simp only [hid]
    simp [identity_quat]

/-- Witness of C10 at `q = (2, 0, 0, 0)`, column 0. -/
theorem quat_to_rh_rot_matrix_columns_witness :
    ({ w := 2, x := 0, y := 0, z := 0 } : quat_t ℝ) ≠ quat_zero ∧
    matrix_column (quat_to_rh_rot_matrix Real.sqrt { w := 2, x := 0, y := 0, z := 0 }) 0 =
      some (quat_rot_vec (basis_vec 0)
        (quat_normalize Real.sqrt { w := 2, x := 0, y := 0, z := 0 })) := by
  have hne : ({ w := 2, x := 0, y := 0, z := 0 } : quat_t ℝ) ≠ quat_zero := by
    intro h
    have hw := congrArg quat_t.w h
    norm_num [quat_zero] at hw
  exact ⟨hne, (quat_to_rh_rot_matrix_columns _ hne).2.1 0⟩

end IncrementalAndMatrix

/-! ## Rotation matrices: orthonormal blocks -/

section MatrixOrthonormal

theorem normsq_pos_of_quat_len_ne_zero (q : quat_t ℝ) (hq : quat_len Real.sqrt q ≠ 0) :
    0 < normsq q := by
  rw [quat_len_eq_sqrt_normsq] at hq
  rcases lt_or_eq_of_le (normsq_nonneg q) with h | h
  · exact h
  · rw [← h, Real.sqrt_zero] at hq
    exact absurd rfl hq

/-- The three columns of the upper-left block of a list of sixteen entries. -/
theorem matrix_column_list {F : Type} [LinearOrderedField F]
    (a0 a1 a2 a3 a4 a5 a6 a7 a8 a9 a10 a11 a12 a13 a14 a15 : F) (j : Fin 3) :
    matrix_column [a0, a1, a2, a3, a4, a5, a6, a7, a8, a9, a10, a11, a12, a13, a14, a15] j =
      some (match j with
        | 0 => ⟨a0, a1, a2⟩
        | 1 => ⟨a4, a5, a6⟩
        | 2 => ⟨a8, a9, a10⟩) := by
  fin_cases j <;> rfl

/-- The nine entries of the upper-left block of a list of sixteen entries. -/
theorem block_entry_list {F : Type} [LinearOrderedField F]
    (a0 a1 a2 a3 a4 a5 a6 a7 a8 a9 a10 a11 a12 a13 a14 a15 : F) (i j : Fin 3) :
    block_entry [a0, a1, a2, a3, a4, a5, a6, a7, a8, a9, a10, a11, a12, a13, a14, a15] i j =
      some (match i, j with
        | 0, 0 => a0
        | 1, 0 => a1
        | 2, 0 => a2
        | 0, 1 => a4
        | 1, 1 => a5
        | 2, 1 => a6
        | 0, 2 => a8
        | 1, 2 => a9
        | 2, 2 => a10) := by
  fin_cases i <;> fin_cases j <;> rfl

/-- C11: for every quaternion `q` of non-zero length, the columns of the upper-left
    3x3 block of `quat_to_rh_rot_matrix q` and of `quat_to_lh_rot_matrix q` are unit
    length and mutually perpendicular (`Rᵀ R = I`), and the left-handed block is the
    transpose of the right-handed one. -/
theorem rot_matrix_blocks_orthonormal (q : quat_t ℝ) (hq : quat_len Real.sqrt q ≠ 0) :
    (∀ i j : Fin 3, ∃ ci cj,
      matrix_column (quat_to_rh_rot_matrix Real.sqrt q) i = some ci ∧
      matrix_column (quat_to_rh_rot_matrix Real.sqrt q) j = some cj ∧
      vec3_dot ci cj = if i = j then 1 else 0) ∧
    (∀ i j : Fin 3, ∃ ci cj,
      matrix_column (quat_to_lh_rot_matrix Real.sqrt q) i = some ci ∧
      matrix_column (quat_to_lh_rot_matrix Real.sqrt q) j = some cj ∧
      vec3_dot ci cj = if i = j then 1 else 0) ∧
    (∀ i j : Fin 3, ∃ r,
      block_entry (quat_to_lh_rot_matrix Real.sqrt q) i j = some r ∧
      block_entry (quat_to_rh_rot_matrix Real.sqrt q) j i = some r) := by
  have hn := unit_quat_normalize q (normsq_pos_of_quat_len_ne_zero q hq)
  obtain ⟨n, hndef⟩ : ∃ n, n = quat_normalize Real.sqrt q := ⟨_, rfl⟩
  rw [← hndef] at hn
  unfold unit_quat at hn
  refine ⟨?_, ?_, ?_⟩
  · intro i j
    unfold quat_to_rh_rot_matrix
    simp only [← hndef, matrix_column_list]
    refine ⟨_, _, rfl, rfl, ?_⟩
    fin_cases i <;> fin_cases j <;> simp [vec3_dot_eq] <;>
      first
        | linear_combination (4 * (n.y ^ 2 + n.z ^ 2)) * hn
        | linear_combination (4 * (n.x ^ 2 + n.z ^ 2)) * hn
        | linear_combination (4 * (n.x ^ 2 + n.y ^ 2)) * hn
        | linear_combination (-4 * n.x * n.y) * hn
        | linear_combination (-4 * n.x * n.z) * hn
        | linear_combination (-4 * n.y * n.z) * hn
  · intro i j
    unfold quat_to_lh_rot_matrix
    simp only [← hndef, matrix_column_list]
    refine ⟨_, _, rfl, rfl, ?_⟩
    fin_cases i <;> fin_cases j <;> simp [vec3_dot_eq] <;>
      first
        | linear_combination (4 * (n.y ^ 2 + n.z ^ 2)) * hn
        | linear_combination (4 * (n.x ^ 2 + n.z ^ 2)) * hn
        | linear_combination (4 * (n.x ^ 2 + n.y ^ 2)) * hn
        | linear_combination (-4 * n.x * n.y) * hn
        | linear_combination (-4 * n.x * n.z) * hn
        | linear_combination (-4 * n.y * n.z) * hn
  · intro i j
    unfold quat_to_lh_rot_matrix quat_to_rh_rot_matrix
    simp only [← hndef]
    rw [block_entry_list, block_entry_list]
    refine ⟨_, rfl, ?_⟩
    fin_cases i <;> fin_cases j <;> rfl

/-- Witness of C11 at `q = (1, 2, 3, 4)`, columns 0 and 1 of the right-handed
    matrix. -/
theorem rot_matrix_blocks_orthonormal_witness :
    quat_len Real.sqrt ({ w := 1, x := 2, y := 3, z := 4 } : quat_t ℝ) ≠ 0 ∧
    ∃ ci cj,
      matrix_column (quat_to_rh_rot_matrix Real.sqrt { w := 1, x := 2, y := 3, z := 4 }) 0
        = some ci ∧
      matrix_column (quat_to_rh_rot_matrix Real.sqrt { w := 1, x := 2, y := 3, z := 4 }) 1
        = some cj ∧
      vec3_dot ci cj = if (0 : Fin 3) = 1 then 1 else 0 := by
  have hne : quat_len Real.sqrt ({ w := 1, x := 2, y := 3, z := 4 } : quat_t ℝ) ≠ 0 := by
    rw [quat_len_eq]
    apply Real.sqrt_ne_zero'.mpr
    norm_num
  exact ⟨hne, (rot_matrix_blocks_orthonormal _ hne).1 0 1⟩

end MatrixOrthonormal

/-! ## Rounding to binary32: lemmas -/

section Binary32Lemmas

theorem round_half_even_eq {F : Type} [LinearOrderedField F] [FloorRing F] (t : F) (M : ℤ)
    (h1 : (M : F) - 1 / 2 < t) (h2 : t < (M : F) + 1 / 2) : round_half_even t = M := by
  unfold round_half_even
  simp only []
  rcases le_or_lt (M : F) t with h | h
  · have hf : ⌊t⌋ = M := by
      rw [Int.floor_eq_iff]
      exact ⟨h, by linarith⟩
    rw [hf, if_pos (by linarith)]
  · have hf : ⌊t⌋ = M - 1 := by
      rw [Int.floor_eq_iff]
      push_cast
      exact ⟨by linarith, by linarith⟩
    rw [hf]
    push_cast
    rw [if_neg (by linarith), if_pos (by linarith)]
    ring

theorem round_half_even_le {F : Type} [LinearOrderedField F] [FloorRing F] (t : F) (N : ℤ)
    (h : t ≤ N) : round_half_even t ≤ N := by
  have hfl : ⌊t⌋ ≤ N := Int.floor_le_iff.mpr (by linarith)
  unfold round_half_even
  simp only []
  rcases eq_or_lt_of_le hfl with he | hl
  · have ht : t = N := le_antisymm h (by rw [← he]; exact Int.floor_le t)
    have hz : t - (⌊t⌋ : F) < 1 / 2 := by
      rw [he, ht]
      norm_num
    rw [if_pos hz]
    exact hfl
  · split_ifs <;> omega

theorem round_half_even_nonneg {F : Type} [LinearOrderedField F] [FloorRing F] (t : F)
    (h : 0 ≤ t) : 0 ≤ round_half_even t := by
  have hfl : 0 ≤ ⌊t⌋ := Int.floor_nonneg.mpr h
  unfold round_half_even
  simp only []
  split_ifs <;> omega

/-- In the binade `[2^e, 2^(e+1))` the result is a multiple of `2^(e-23)`. -/
theorem f32_round_binade {F : Type} [LinearOrderedField F] [FloorRing F] (y : F) (e : ℤ)
    (hlo : (2 : F) ^ e ≤ y) (hhi : y < (2 : F) ^ (e + 1)) :
    f32_round y = (round_half_even (y / (2 : F) ^ (e - 23)) : F) * (2 : F) ^ (e - 23) := by
  have hpos : 0 < y := lt_of_lt_of_le (zpow_pos (by norm_num) e) hlo
  have hlog : Int.log 2 |y| = e := by
    rw [abs_of_pos hpos]
    apply le_antisymm
    · have := (Int.lt_zpow_iff_log_lt (b := 2) (by norm_num) hpos (x := e + 1)).mp
        (by exact_mod_cast hhi)
      omega
    · exact (Int.zpow_le_iff_le_log (b := 2) (by norm_num) hpos).mp (by exact_mod_cast hlo)
  unfold f32_round
  rw [if_neg hpos.ne']
  simp only [hlog]

/-- A value of the binade `[2^e, 2^(e+1))` less than half a unit in the last place away
    from `M * 2^(e-23)` is rounded to it. -/
theorem f32_round_eq {F : Type} [LinearOrderedField F] [FloorRing F] (y : F) (e M : ℤ)
    (hlo : (2 : F) ^ e ≤ y) (hhi : y < (2 : F) ^ (e + 1))
    (h1 : ((M : F) - 1 / 2) * (2 : F) ^ (e - 23) < y)
    (h2 : y < ((M : F) + 1 / 2) * (2 : F) ^ (e - 23)) :
    f32_round y = (M : F) * (2 : F) ^ (e - 23) := by
  have hu : (0 : F) < (2 : F) ^ (e - 23) := zpow_pos (by norm_num) _
  rw [f32_round_binade y e hlo hhi, round_half_even_eq (y / (2 : F) ^ (e - 23)) M
    ((lt_div_iff₀ hu).mpr h1) ((div_lt_iff₀ hu).mpr h2)]

/-- A value of the binade `[2^e, 2^(e+1))` is rounded to a number between 0 and any
    bound `N * 2^(e-23)` above it. -/
theorem f32_round_bounds {F : Type} [LinearOrderedField F] [FloorRing F] (y : F) (e N : ℤ)
    (hlo : (2 : F) ^ e ≤ y) (hhi : y < (2 : F) ^ (e + 1))
    (h : y ≤ (N : F) * (2 : F) ^ (e - 23)) :
    0 ≤ f32_round y ∧ f32_round y ≤ (N : F) * (2 : F) ^ (e - 23) := by
  have hu : (0 : F) < (2 : F) ^ (e - 23) := zpow_pos (by norm_num) _
  have hpos : 0 < y := lt_of_lt_of_le (zpow_pos (by norm_num) e) hlo
  rw [f32_round_binade y e hlo hhi]
  have h0 := round_half_even_nonneg (y / (2 : F) ^ (e - 23)) (div_nonneg hpos.le hu.le)
  have h1 := round_half_even_le (y / (2 : F) ^ (e - 23)) N ((div_le_iff₀ hu).mpr h)
  constructor
  · exact mul_nonneg (by exact_mod_cast h0) hu.le
  · exact mul_le_mul_of_nonneg_right (by exact_mod_cast h1) hu.le

/-- The value `(float)M_PI`. -/
theorem f32_round_M_PI : f32_round (M_PI : ℝ) = 13176795 / 4194304 := by
  rw [f32_round_eq (M_PI : ℝ) 1 13176795 (by norm_num [M_PI]) (by norm_num [M_PI])
    (by norm_num [M_PI]) (by norm_num [M_PI])]
  norm_num

/-- The value `(float)(2 * M_PI)`. -/
theorem f32_round_two_M_PI : f32_round (2 * (M_PI : ℝ)) = 13176795 / 2097152 := by
  rw [f32_round_eq (2 * (M_PI : ℝ)) 2 13176795 (by norm_num [M_PI]) (by norm_num [M_PI])
    (by norm_num [M_PI]) (by norm_num [M_PI])]
  norm_num

/-- The binary32 constant `(float)(2 * M_PI)` is greater than 2π. -/
theorem two_pi_lt_f32 : 2 * Real.pi < 13176795 / 2097152 := by
  have h := Real.pi_lt_d20
  norm_num at h ⊢
  linarith

end Binary32Lemmas

/-! ## Axis-angle round trip, normalization, identity -/

section AxisAngle

/-- C13: for every quaternion `q` with `quat_len q > 0`, the length of
    `quat_normalize q` is 1, and `quat_normalize q = q` when `q` is already unit. -/
theorem quat_normalize_unit (q : quat_t ℝ) (hq : 0 < quat_len Real.sqrt q) :
    quat_len Real.sqrt (quat_normalize Real.sqrt q) = 1 ∧
      (unit_quat q → quat_normalize Real.sqrt q = q) := by
  have hpos : 0 < normsq q := by
    rw [quat_len_eq_sqrt_normsq] at hq
    exact Real.sqrt_pos.mp hq
  exact ⟨(quat_len_eq_one_iff _).mpr (unit_quat_normalize q hpos),
    fun hu => quat_normalize_of_unit q hu⟩

/-- Witness of C13 at `q = (3, 4, 0, 0)`, of length 5. -/
theorem quat_normalize_unit_witness :
    quat_len Real.sqrt (quat_normalize Real.sqrt
      ({ w := 3, x := 4, y := 0, z := 0 } : quat_t ℝ)) = 1 :=
  (quat_normalize_unit { w := 3, x := 4, y := 0, z := 0 } (by
    rw [quat_len_eq]
    apply Real.sqrt_pos.mpr
    norm_num)).1

/-- C14: `identity_quat` is a two-sided identity of `quat_mul`. -/
theorem quat_mul_identity {F : Type} [LinearOrderedField F] (q : quat_t F) :
    quat_mul q identity_quat = q ∧ quat_mul identity_quat q = q := by
  constructor <;> ext <;> simp [quat_mul, identity_quat]

end AxisAngle

/-! ## Interpolation start point and degenerate inputs -/

section Degenerate

/-- C15: for all quaternions `a`, `b` (unit or not), `quat_slerp a b 0 = a`. -/
theorem quat_slerp_at_zero (a b : quat_t ℝ) :
    quat_slerp Real.sin Real.arccos a b 0 = a := by
  unfold quat_slerp
  simp only [ge_iff_le]
  by_cases h1 : 1 ≤ quat_dot a b
  · rw [if_pos h1]
  · rw [if_neg h1]
    by_cases h0 : quat_dot a b < 0
    · simp only [if_pos h0]
      by_cases hc : -quat_dot a b < 0.99995
      · have hs := sin_arccos_pos (-quat_dot a b) (by linarith) (by norm_num at hc ⊢; linarith)
        simp only [if_pos hc, sub_zero, one_mul, zero_mul, Real.sin_zero, zero_div,
          div_self hs.ne', add_zero]
      · simp only [if_neg hc, sub_zero, one_mul, zero_mul, add_zero]
    · simp only [if_neg h0]
      by_cases hc : quat_dot a b < 0.99995
      · have hs := sin_arccos_pos (quat_dot a b) (by linarith) (by norm_num at hc ⊢; linarith)
        simp only [if_pos hc, sub_zero, one_mul, zero_mul, Real.sin_zero, zero_div,
          div_self hs.ne', add_zero]
      · simp only [if_neg hc, sub_zero, one_mul, zero_mul, add_zero]

/-- C16: for every unit quaternion `a` and every real `t`, `quat_slerp a a t = a` and
    `quat_slerp a (-a) t = a`, where `-a` negates all four components. -/
theorem quat_slerp_no_rotation (a : quat_t ℝ) (ha : unit_quat a) (t : ℝ) :
    quat_slerp Real.sin Real.arccos a a t = a ∧
      quat_slerp Real.sin Real.arccos a (quat_neg a) t = a := by
  have hself : quat_dot a a = 1 := by
    rw [quat_dot_eq]
    exact (unit_quat_iff_normsq a).mp ha
  have hneg : quat_dot a (quat_neg a) = -1 := by
    rw [quat_dot_neg, hself]
  constructor
  · unfold quat_slerp
    simp only [hself, ge_iff_le, le_refl, if_true]
  · have e1 : ¬ ((1 : ℝ) ≤ -1) := by norm_num
    have e2 : (-1 : ℝ) < 0 := by norm_num
    have e3 : ¬ (-(-1 : ℝ) < 0.99995) := by norm_num
    unfold quat_slerp
    simp only [hneg, ge_iff_le, if_neg e1, if_pos e2, if_neg e3]
    simp only [quat_neg, neg_neg]
    ext <;> ring

/-- Witness of C16 at `a = (3/5, 0, 4/5, 0)`, `t = 7`. -/
theorem quat_slerp_no_rotation_witness :
    quat_slerp Real.sin Real.arccos ({ w := 3/5, x := 0, y := 4/5, z := 0 } : quat_t ℝ)
        { w := 3/5, x := 0, y := 4/5, z := 0 } 7 = { w := 3/5, x := 0, y := 4/5, z := 0 } ∧
      quat_slerp Real.sin Real.arccos ({ w := 3/5, x := 0, y := 4/5, z := 0 } : quat_t ℝ)
        (quat_neg { w := 3/5, x := 0, y := 4/5, z := 0 }) 7
          = { w := 3/5, x := 0, y := 4/5, z := 0 } :=
  quat_slerp_no_rotation _ (by norm_num [unit_quat]) 7

theorem vec3_normalize_neg (u : vec3_t ℝ) :
    vec3_normalize Real.sqrt (vec3_neg u) = vec3_neg (vec3_normalize Real.sqrt u) := by
  have hl : vec3_len2 (vec3_neg u) = vec3_len2 u := by
    simp only [vec3_len2, vec3_neg]
    ring
  unfold vec3_normalize
  simp only [hl]
  ext <;> simp only [vec3_neg, neg_div]

theorem vec3_dot_self (p : vec3_t ℝ) : vec3_dot p p = vec3_len2 p := rfl

theorem vec3_dot_neg (p r : vec3_t ℝ) : vec3_dot p (vec3_neg r) = -vec3_dot p r := by
  simp only [vec3_dot_eq, vec3_neg]
  ring

/-- C17: for every non-zero vector `u` and any `up`, `quat_from_u2v u u up` is
    `identity_quat`; and `quat_from_u2v u (-u) up` with `up = (0, 1, 0)` is
    `quat_init_axis 0 1 0 π`, which is `(w = 0, x = 0, y = 1, z = 0)`. -/
theorem quat_from_u2v_degenerate (u : vec3_t ℝ) (hu : u ≠ vec3_zero) :
    (∀ up : Option (vec3_t ℝ),
      quat_from_u2v Real.sqrt Real.sin Real.cos Real.arccos Real.pi u u up = identity_quat) ∧
    quat_from_u2v Real.sqrt Real.sin Real.cos Real.arccos Real.pi u (vec3_neg u)
        (some { x := 0, y := 1, z := 0 })
      = quat_init_axis Real.sin Real.cos 0 1 0 Real.pi ∧
    quat_init_axis Real.sin Real.cos 0 1 0 Real.pi = { w := 0, x := 0, y := 1, z := 0 } := by
  have hp := vec3_len2_normalize u hu
  have hdot : vec3_dot (vec3_normalize Real.sqrt u) (vec3_normalize Real.sqrt u) = 1 := by
    rw [vec3_dot_self, hp]
  have hdotn : vec3_dot (vec3_normalize Real.sqrt u) (vec3_normalize Real.sqrt (vec3_neg u))
      = -1 := by
    rw [vec3_normalize_neg, vec3_dot_neg, hdot]
  have e1 : ¬ (|(1 : ℝ) - -1| < ZERO_TOLERANCE) := by
    norm_num [ZERO_TOLERANCE]
  have e2 : |(1 : ℝ) - 1| < ZERO_TOLERANCE := by
    norm_num [ZERO_TOLERANCE]
  have e3 : |(-1 : ℝ) - -1| < ZERO_TOLERANCE := by
    norm_num [ZERO_TOLERANCE]
  refine ⟨?_, ?_, ?_⟩
  · intro up
    unfold quat_from_u2v
    simp only [hdot, if_neg e1, if_pos e2]
  · unfold quat_from_u2v
    simp only [hdotn, if_pos e3]
  · simp only [quat_init_axis, half_angle, Real.sin_pi_div_two, Real.cos_pi_div_two]
    norm_num

/-- Witness of C17 at `u = (1, 2, 2)`. -/
theorem quat_from_u2v_degenerate_witness :
    quat_from_u2v Real.sqrt Real.sin Real.cos Real.arccos Real.pi
        ({ x := 1, y := 2, z := 2 } : vec3_t ℝ) { x := 1, y := 2, z := 2 } none
      = identity_quat :=
  (quat_from_u2v_degenerate { x := 1, y := 2, z := 2 } (by
    intro h
    have hx := congrArg vec3_t.x h
    norm_num [vec3_zero] at hx)).1 none

end Degenerate

/-! ## Cold start, Euler yaw range, handedness -/

section ColdStartEuler

/-- The Z-Y-X composition of three half-angle rotations has squared length 1. -/
theorem euler_composition_unit {F : Type} [LinearOrderedField F] (cr sr cp sp ch sh : F)
    (hr : sr ^ 2 + cr ^ 2 = 1) (hp : sp ^ 2 + cp ^ 2 = 1) (hh : sh ^ 2 + ch ^ 2 = 1) :
    unit_quat ({ w := cr * cp * ch + sr * sp * sh,
                 x := sr * cp * ch - cr * sp * sh,
                 y := cr * sp * ch + sr * cp * sh,
                 z := cr * cp * sh - sr * sp * ch } : quat_t F) := by
  unfold unit_quat
  simp only []
  linear_combination ((sp ^ 2 + cp ^ 2) * (sh ^ 2 + ch ^ 2)) * hr + (sh ^ 2 + ch ^ 2) * hp + hh

/-- C18: for every accelerometer vector `acc` and magnetometer vector `mag` (and
    whatever `atan2` returns), the quaternion written by `quat_init` satisfies
    `q0² + q1² + q2² + q3² = 1`. -/
theorem quat_init_unit (atan2 : ℝ → ℝ → ℝ) (acc mag : vec3_t ℝ) :
    unit_quat (quat_init Real.sin Real.cos atan2 acc mag) := by
  unfold quat_init
  simp only []
  exact euler_composition_unit _ _ _ _ _ _ (Real.sin_sq_add_cos_sq _)
    (Real.sin_sq_add_cos_sq _) (Real.sin_sq_add_cos_sq _)

theorem normalize_euler_of_nonneg (rnd : ℝ → ℝ) (pi a : ℝ) (fuel : Nat) (ha : 0 ≤ a) :
    normalize_euler_0_2pi rnd pi fuel a = some a := by
  cases fuel with
  | zero => simp only [normalize_euler_0_2pi, if_neg (not_lt.mpr ha)]
  | succ n => simp only [normalize_euler_0_2pi, if_neg (not_lt.mpr ha)]

/-- The body of the loop of `normalize_euler_0_2pi` on a negative angle not below
    `-(float)M_PI`: the binary32 sum with `(float)(2 * M_PI)` is in
    `[0, (float)(2 * M_PI)]`. -/
theorem f32_round_add_two_pi_bounds (a : ℝ) (hlo : -(13176795 / 4194304) ≤ a) (hneg : a < 0) :
    0 ≤ f32_round (a + 13176795 / 2097152) ∧
      f32_round (a + 13176795 / 2097152) ≤ 13176795 / 2097152 := by
  rcases lt_or_le (a + 13176795 / 2097152) 4 with h | h
  · have hb := f32_round_bounds (a + 13176795 / 2097152) 1 (2 ^ 24)
      (by norm_num; linarith) (by norm_num; linarith) (by norm_num; linarith)
    refine ⟨hb.1, le_trans hb.2 ?_⟩
    norm_num
  · have hb := f32_round_bounds (a + 13176795 / 2097152) 2 13176795
      (by norm_num; linarith) (by norm_num; linarith) (by norm_num; linarith)
    refine ⟨hb.1, le_trans hb.2 ?_⟩
    norm_num

/-- On an angle between `-(float)M_PI` and `(float)M_PI` the loop of
    `normalize_euler_0_2pi` runs its body at most once and returns an angle in
    `[0, (float)(2 * M_PI)]`. -/
theorem normalize_euler_range (a : ℝ) (fuel : Nat) (hfuel : 1 ≤ fuel)
    (ha : |a| ≤ 13176795 / 4194304) :
    ∃ r, normalize_euler_0_2pi f32_round M_PI fuel a = some r ∧ 0 ≤ r ∧
      r ≤ 13176795 / 2097152 ∧ (r = a ∨ r = f32_round (a + 13176795 / 2097152)) := by
  have hb := abs_le.mp ha
  obtain ⟨n, rfl⟩ : ∃ n, fuel = n + 1 := ⟨fuel - 1, by omega⟩
  by_cases h : a < 0
  · have hr := f32_round_add_two_pi_bounds a hb.1 h
    refine ⟨f32_round (a + 13176795 / 2097152), ?_, hr.1, hr.2, Or.inr rfl⟩
    simp only [normalize_euler_0_2pi, if_pos h, f32_round_two_M_PI]
    exact normalize_euler_of_nonneg _ _ _ _ hr.1
  · refine ⟨a, ?_, not_lt.mp h, ?_, Or.inl rfl⟩
    · simp only [normalize_euler_0_2pi, if_neg h]
    · have : (13176795 : ℝ) / 4194304 ≤ 13176795 / 2097152 := by norm_num
      linarith

/-- The value of `quat_to_euler` once the loop of `normalize_euler_0_2pi` has
    returned the yaw. -/
theorem quat_to_euler_of_yaw (rnd asin : ℝ → ℝ) (atan2 : ℝ → ℝ → ℝ) (pi : ℝ) (fuel : Nat)
    (q : quat_t ℝ) (r : ℝ)
    (h : normalize_euler_0_2pi rnd pi fuel (atan2 (2 * (q.x * q.y + q.z * q.w))
      (q.x * q.x - q.y * q.y - q.z * q.z + q.w * q.w)) = some r) :
    quat_to_euler rnd asin atan2 pi fuel q =
      some { yaw := r,
             pitch := asinf asin (-2 * (q.x * q.z - q.y * q.w)),
             roll := atan2 (2 * (q.y * q.z + q.x * q.w))
               (-(q.x * q.x) - q.y * q.y + q.z * q.z + q.w * q.w) } := by
  unfold quat_to_euler
  simp only [h]

/-- C19 (as amended): for every quaternion `q`, with an `atan2` whose results lie
    between `-(float)M_PI` and `(float)M_PI`, `quat_to_euler q` returns (the loop of
    `normalize_euler_0_2pi` exits after at most one addition) and the yaw it writes
    satisfies `0 ≤ yaw ≤ (float)(2 * M_PI)`, a bound that is greater than 2π. -/
theorem quat_to_euler_yaw_range (asin : ℝ → ℝ) (atan2 : ℝ → ℝ → ℝ)
    (hatan2 : ∀ y x, |atan2 y x| ≤ f32_round M_PI)
    (q : quat_t ℝ) (fuel : Nat) (hfuel : 1 ≤ fuel) :
    (∃ e, quat_to_euler f32_round asin atan2 M_PI fuel q = some e ∧
      0 ≤ e.yaw ∧ e.yaw ≤ f32_round (2 * M_PI)) ∧
    2 * Real.pi < f32_round (2 * M_PI) := by
  rw [f32_round_two_M_PI]
  refine ⟨?_, two_pi_lt_f32⟩
  have hat := hatan2 (2 * (q.x * q.y + q.z * q.w))
    (q.x * q.x - q.y * q.y - q.z * q.z + q.w * q.w)
  rw [f32_round_M_PI] at hat
  obtain ⟨r, hr, h0, h1, _⟩ := normalize_euler_range _ fuel hfuel hat
  exact ⟨_, quat_to_euler_of_yaw f32_round asin atan2 M_PI fuel q r hr, h0, h1⟩

/-- The real `atan2`, `atan2 y x = arg (x + y i)`, has its results between
    `-(float)M_PI` and `(float)M_PI`. -/
theorem abs_arg_le_f32_pi (y x : ℝ) : |Complex.arg ⟨x, y⟩| ≤ f32_round M_PI := by
  rw [f32_round_M_PI]
  have h := Complex.abs_arg_le_pi ⟨x, y⟩
  have hpi := Real.pi_lt_d20
  norm_num at hpi
  refine le_trans h (le_of_lt (lt_trans hpi ?_))
  norm_num

/-- Witness of C19 with `atan2 y x = arg (x + y i)`, `asin = arcsin`, at
    `q = (1, 2, 3, 4)` and fuel 1. -/
theorem quat_to_euler_yaw_range_witness :
    ∃ e, quat_to_euler f32_round Real.arcsin (fun y x => Complex.arg ⟨x, y⟩) M_PI 1
        ({ w := 1, x := 2, y := 3, z := 4 } : quat_t ℝ) = some e ∧
      0 ≤ e.yaw ∧ e.yaw ≤ f32_round (2 * M_PI) :=
  (quat_to_euler_yaw_range Real.arcsin (fun y x => Complex.arg ⟨x, y⟩)
    (fun y x => abs_arg_le_f32_pi y x)
    { w := 1, x := 2, y := 3, z := 4 } 1 (le_refl 1)).1

/-- The real `atan2` of a small negative `y0` and an `x0 ≥ 1/2` is a small negative
    angle. -/
theorem arg_small_neg (x0 y0 : ℝ) (hx : 1 / 2 ≤ x0) (hy : -(1 / 2 ^ 29) ≤ y0) (hy0 : y0 < 0) :
    -(1 / 2 ^ 23) < Complex.arg ⟨x0, y0⟩ ∧ Complex.arg ⟨x0, y0⟩ < 0 := by
  have hneg : Complex.arg ⟨x0, y0⟩ < 0 := Complex.arg_neg_iff.mpr hy0
  refine ⟨?_, hneg⟩
  have hre : (0 : ℝ) ≤ (⟨x0, y0⟩ : ℂ).re := by
    show 0 ≤ x0
    linarith
  rw [Complex.arg_of_re_nonneg hre]
  have habs : 1 / 2 ≤ Complex.abs ⟨x0, y0⟩ := le_trans hx (Complex.re_le_abs ⟨x0, y0⟩)
  have habs0 : 0 < Complex.abs ⟨x0, y0⟩ := by linarith
  have ht : -(1 / 2 ^ 28) ≤ (⟨x0, y0⟩ : ℂ).im / Complex.abs ⟨x0, y0⟩ := by
    rw [le_div_iff₀ habs0]
    show -(1 / 2 ^ 28) * Complex.abs ⟨x0, y0⟩ ≤ y0
    nlinarith
  have hpi := Real.pi_gt_three
  have hmem : -(1 / 2 ^ 23 : ℝ) ∈ Set.Ico (-(Real.pi / 2)) (Real.pi / 2) := by
    constructor
    · have : (1 : ℝ) / 2 ^ 23 ≤ 1 := by norm_num
      linarith
    · have : (0 : ℝ) < 1 / 2 ^ 23 := by norm_num
      linarith
  rw [Real.lt_arcsin_iff_sin_lt' hmem, Real.sin_neg]
  have hs := Real.sin_gt_sub_cube (x := (1 / 2 ^ 23 : ℝ)) (by norm_num) (by norm_num)
  have hnum : (1 : ℝ) / 2 ^ 28 < 1 / 2 ^ 23 - (1 / 2 ^ 23) ^ 3 / 4 := by norm_num
  linarith

/-- Counterexample to C19 as stated: at `q = (w, x, y, z) = (1, 0, 0, -2^-30)`, with
    `atan2 y x = arg (x + y i)`, `atan2f` is a small negative angle, the loop adds
    `(float)(2 * M_PI)` once and the yaw written is `(float)(2 * M_PI)`, which is
    greater than 2π. -/
theorem quat_to_euler_yaw_counterexample :
    ∃ e, quat_to_euler f32_round Real.arcsin (fun y x => Complex.arg ⟨x, y⟩) M_PI 1
        ({ w := 1, x := 0, y := 0, z := -(1 / 2 ^ 30) } : quat_t ℝ) = some e ∧
      e.yaw = 13176795 / 2097152 ∧ 2 * Real.pi < e.yaw ∧ ¬ (e.yaw < 2 * Real.pi) := by
  obtain ⟨hlo, hneg⟩ := arg_small_neg
    ((0 : ℝ) * 0 - 0 * 0 - -(1 / 2 ^ 30) * -(1 / 2 ^ 30) + 1 * 1)
    (2 * ((0 : ℝ) * 0 + -(1 / 2 ^ 30) * 1)) (by norm_num) (by norm_num) (by norm_num)
  have hround : f32_round
      (Complex.arg ⟨(0 : ℝ) * 0 - 0 * 0 - -(1 / 2 ^ 30) * -(1 / 2 ^ 30) + 1 * 1,
        2 * ((0 : ℝ) * 0 + -(1 / 2 ^ 30) * 1)⟩ + 13176795 / 2097152)
      = 13176795 / 2097152 := by
    rw [f32_round_eq _ 2 13176795 (by norm_num; linarith) (by norm_num; linarith)
      (by norm_num; linarith) (by norm_num; linarith)]
    norm_num
  have hyaw : normalize_euler_0_2pi f32_round M_PI 1
      ((fun y x => Complex.arg ⟨x, y⟩) (2 * ((0 : ℝ) * 0 + -(1 / 2 ^ 30) * 1))
        ((0 : ℝ) * 0 - 0 * 0 - -(1 / 2 ^ 30) * -(1 / 2 ^ 30) + 1 * 1))
      = some (13176795 / 2097152) := by
    simp only [normalize_euler_0_2pi, if_pos hneg, f32_round_two_M_PI, hround]
    rw [if_neg (by norm_num)]
  refine ⟨_, quat_to_euler_of_yaw f32_round Real.arcsin _ M_PI 1
    { w := 1, x := 0, y := 0, z := -(1 / 2 ^ 30) } _ hyaw, rfl, ?_, ?_⟩
  · exact two_pi_lt_f32
  · exact not_lt.mpr two_pi_lt_f32.le

/-- C20: `quat_init_axis 0 0 1 (π/2)` is `(w = √2/2, x = 0, y = 0, z = √2/2)`, and
    `quat_rot_vec` maps `(1, 0, 0)` to `(0, 1, 0)` with that quaternion. -/
theorem quat_init_axis_z_quarter_turn :
    quat_init_axis Real.sin Real.cos 0 0 1 (Real.pi / 2)
      = { w := Real.sqrt 2 / 2, x := 0, y := 0, z := Real.sqrt 2 / 2 } ∧
    quat_rot_vec ({ x := 1, y := 0, z := 0 } : vec3_t ℝ)
        (quat_init_axis Real.sin Real.cos 0 0 1 (Real.pi / 2))
      = { x := 0, y := 1, z := 0 } := by
  have hq : quat_init_axis Real.sin Real.cos 0 0 1 (Real.pi / 2)
      = { w := Real.sqrt 2 / 2, x := 0, y := 0, z := Real.sqrt 2 / 2 } := by
    simp only [quat_init_axis, half_angle]
    rw [show Real.pi / 2 / 2 = Real.pi / 4 by ring, Real.sin_pi_div_four,
      Real.cos_pi_div_four]
    simp
  have h2 : Real.sqrt 2 * Real.sqrt 2 = 2 := Real.mul_self_sqrt (by norm_num)
  refine ⟨hq, ?_⟩
  rw [hq]
  ext <;> simp only [quat_rot_vec]
  · ring
  · linear_combination (1 / 2 : ℝ) * h2
  · ring

end ColdStartEuler

/-! ## Unit invariant of the product, and the domain of the pitch -/

section UnitInvariant

/-- C21: the norm is multiplicative, `quat_len (quat_mul a b) = quat_len a * quat_len b`
    for all quaternions `a`, `b`; hence the product of two unit quaternions is unit,
    and `quat_apply_relative_yaw_pitch`, which does not renormalize, maps every unit
    `q` to a unit quaternion. -/
theorem quat_mul_preserves_unit :
    (∀ a b : quat_t ℝ,
      quat_len Real.sqrt (quat_mul a b) = quat_len Real.sqrt a * quat_len Real.sqrt b) ∧
    (∀ a b : quat_t ℝ, unit_quat a → unit_quat b → unit_quat (quat_mul a b)) ∧
    (∀ (q : quat_t ℝ) (yaw pitch : ℝ), unit_quat q →
      unit_quat (quat_apply_relative_yaw_pitch Real.sin Real.cos q yaw pitch) ∧
      quat_len Real.sqrt (quat_apply_relative_yaw_pitch Real.sin Real.cos q yaw pitch) = 1) := by
  refine ⟨?_, ?_, ?_⟩
  · intro a b
    rw [quat_len_eq_sqrt_normsq, quat_len_eq_sqrt_normsq, quat_len_eq_sqrt_normsq,
      normsq_quat_mul]
    exact Real.sqrt_mul (normsq_nonneg a) (normsq b)
  · intro a b ha hb
    exact unit_quat_mul a b ha hb
  · intro q yaw pitch hq
    have hy := unit_quat_init_axis 0 1 0 yaw (by norm_num)
    have hp := unit_quat_init_axis 0 0 1 pitch (by norm_num)
    have hu : unit_quat (quat_apply_relative_yaw_pitch Real.sin Real.cos q yaw pitch) := by
      unfold quat_apply_relative_yaw_pitch
      exact unit_quat_mul _ _ (unit_quat_mul _ _ hy hq) hp
    exact ⟨hu, quat_len_of_unit _ hu⟩

/-- Witness of C21 at `q = (1/2, 1/2, 1/2, 1/2)`, `yaw = 1`, `pitch = 2`. -/
theorem quat_mul_preserves_unit_witness :
    unit_quat ({ w := 1/2, x := 1/2, y := 1/2, z := 1/2 } : quat_t ℝ) ∧
    quat_len Real.sqrt (quat_apply_relative_yaw_pitch Real.sin Real.cos
      ({ w := 1/2, x := 1/2, y := 1/2, z := 1/2 } : quat_t ℝ) 1 2) = 1 :=
  ⟨by norm_num [unit_quat],
   (quat_mul_preserves_unit.2.2 _ 1 2 (by norm_num [unit_quat])).2⟩

end UnitInvariant

end Quat
